import Mathlib

/-!
A verification development for yacbi (Yet Another Clang-Based Indexer).

The definitions below are a shallow embedding of `yacbi.py`.  Pure Python
functions become Lean functions; the sqlite store becomes an explicit
`DBState` record threaded through the operations; the external
collaborators (the clang parser, the filesystem, the compilation database
and the `fnmatch` glob matcher) are parameters of the embedded driver.
Paths use POSIX conventions (`os.path.sep = '/'`), and Python's dynamic
`datetime` values are modelled as integers ordered like timestamps.
-/

namespace Yacbi

/-! ### Path utilities (model of the POSIX `os.path` functions used) -/

/-- Split a character list on `'/'` (model of `p.split('/')`). -/
def splitSlash : List Char → List (List Char)
  | [] => [[]]
  | c :: cs =>
    let r := splitSlash cs
    if c = '/' then [] :: r
    else
      match r with
      | [] => [[c]]
      | h :: t => (c :: h) :: t

def isAbsChars (cs : List Char) : Bool :=
  match cs with
  | c :: _ => c = '/'
  | [] => false

/-- The component stack produced while normalizing a path: `.` and empty
components vanish, `..` pops a previous component (or survives in a
relative path, or vanishes at the root of an absolute path). -/
def normComps (abs : Bool) (comps : List (List Char)) : List (List Char) :=
  (comps.foldl
    (fun stack comp =>
      if comp = [] ∨ comp = ['.'] then stack
      else if comp = ['.', '.'] then
        match stack with
        | [] => if abs then [] else [comp]
        | top :: rest => if top = ['.', '.'] then comp :: stack else rest
      else comp :: stack)
    []).reverse

def joinComps (abs : Bool) (comps : List (List Char)) : List Char :=
  let body := (comps.intersperse ['/']).flatten
  if abs then '/' :: body
  else if body = [] then ['.']
  else body

/-- Model of `os.path.normpath` (POSIX). -/
def normpath (s : String) : String :=
  let cs := s.data
  let abs := isAbsChars cs
  ⟨joinComps abs (normComps abs (splitSlash cs))⟩

def isAbsPath (p : String) : Bool := isAbsChars p.data

/-- Model of `os.path.join cwd p` for the shapes used by the source
(second argument relative). -/
def joinPath (cwd p : String) : String :=
  if cwd = "" then p
  else if cwd.data.getLast? = some '/' then ⟨cwd.data ++ p.data⟩
  else ⟨cwd.data ++ '/' :: p.data⟩

/-- Embeds `_make_absolute_path`. -/
def makeAbsolutePath (cwd path : String) : String :=
  if isAbsPath path then normpath path else normpath (joinPath cwd path)

def baseNameChars (p : String) : List Char :=
  match (splitSlash p.data).getLast? with
  | some b => b
  | none => []

/-- Position of the extension dot of a basename, following
`os.path.splitext`: the rightmost dot that has some non-dot character
before it within the basename. -/
def extStartIdx (b : List Char) : Option Nat :=
  ((List.range b.length).filter
    (fun i => (b.get? i == some '.') && (b.take i).any (fun c => c != '.'))).getLast?

/-- The extension part of `os.path.splitext`. -/
def splitextExt (p : String) : String :=
  let b := baseNameChars p
  match extStartIdx b with
  | some i => ⟨b.drop i⟩
  | none => ""

def cppExtList : List String := [".cc", ".cp", ".cxx", ".cpp", ".CPP", ".c++", ".C"]

/-- Embeds `_is_cpp_source`. -/
def isCppSource (path : String) : Bool := cppExtList.contains (splitextExt path)

/-! ### Compile arguments (`_CompileArgs`, `_make_compile_args`) -/

/-- Models the dynamically typed `includes` field of the `_CompileArgs`
namedtuple: `_make_compile_args` stores a set of include paths there,
while the constructor call in `_Index.__init__` stores the
working-directory string in that position. -/
inductive IncludesVal where
  | pathSet : List String → IncludesVal
  | strVal : String → IncludesVal
deriving DecidableEq

/-- Python iteration over the `includes` value: a set yields its
elements, a string yields its characters as one-character strings. -/
def IncludesVal.iterate : IncludesVal → List String
  | .pathSet l => l
  | .strVal s => s.data.map (fun c => ⟨[c]⟩)

structure CompileArgs where
  all_args : List String
  includes : IncludesVal
  has_x : Bool
deriving DecidableEq

structure CompileCommand where
  filename : String
  args : CompileArgs
  current_dir : String
  is_included : Bool
deriving DecidableEq

/-- Python `set.add` on a set modelled as an insertion-ordered
duplicate-free list. -/
def insertNew (a : String) (l : List String) : List String :=
  if l.contains a then l else l ++ [a]

/-- The `_PATH_ARGS` tuple, in source order (the order matters for the prefix
matching in `_handle_one_part_include_arg`). -/
def pathArgsList : List String :=
  ["-include", "-isystem", "-I", "-iquote", "--sysroot=", "-isysroot"]

/-- Embeds `_handle_two_part_arg`: append the flag and, when the iterator
yields one, the following token; returns the result list and the rest of
the iterator. -/
def handleTwoPartArg (arg : String) (itr : List String)
    (resultArgs : List String) : List String × List String :=
  let resultArgs := resultArgs ++ [arg]
  match itr with
  | [] => (resultArgs, [])
  | v :: rest => (resultArgs ++ [v], rest)

/-- Embeds `_handle_two_part_include_arg`; the source tests
`result_args[-1] == '-include'` on the just-appended flag before adding
the normalized path to the include set. -/
def handleTwoPartIncludeArg (arg : String) (itr : List String)
    (resultArgs : List String) (cwd : String) (includes : List String) :
    List String × List String × List String :=
  let resultArgs := resultArgs ++ [arg]
  match itr with
  | [] => (resultArgs, includes, [])
  | v :: rest =>
    let absPath := makeAbsolutePath cwd v
    let includes :=
      if resultArgs.getLast? = some "-include" then insertNew absPath includes
      else includes
    (resultArgs ++ [absPath], includes, rest)

/-- Embeds `_handle_one_part_include_arg`: the first matching prefix of
`_PATH_ARGS` wins; a non-matching argument is dropped. -/
def handleOnePartIncludeArg (arg : String) (resultArgs : List String)
    (cwd : String) (includes : List String) : List String × List String :=
  match pathArgsList.find? (fun pa => pa.data.isPrefixOf arg.data) with
  | none => (resultArgs, includes)
  | some pa =>
    let path : String := ⟨arg.data.drop pa.data.length⟩
    let absPath := makeAbsolutePath cwd path
    let includes :=
      if pa = "-include" then insertNew absPath includes else includes
    (resultArgs ++ [⟨pa.data ++ absPath.data⟩], includes)

theorem handleTwoPartArg_rest_length (arg : String) (itr resultArgs : List String) :
    (handleTwoPartArg arg itr resultArgs).2.length ≤ itr.length := by
  cases itr <;> simp [handleTwoPartArg]

theorem handleTwoPartIncludeArg_rest_length (arg : String)
    (itr resultArgs : List String) (cwd : String) (includes : List String) :
    (handleTwoPartIncludeArg arg itr resultArgs cwd includes).2.2.length ≤ itr.length := by
  cases itr <;> simp [handleTwoPartIncludeArg]

/-- The `while` loop of `_make_compile_args`, with `itertools.chain(args,
extra_args)` modelled as the list the loop still has to consume. -/
def makeCompileArgsGo (cwd : String) (banned : List String) :
    List String → List String → List String → Bool → CompileArgs
  | [], acc, incs, hx => ⟨acc, .pathSet incs, hx⟩
  | arg :: itr, acc, incs, hx =>
    if banned.contains arg then
      makeCompileArgsGo cwd banned itr acc incs hx
    else if arg = "-nostdinc" ∨ "-D".data.isPrefixOf arg.data ∨
        "-W".data.isPrefixOf arg.data ∨ "-std=".data.isPrefixOf arg.data then
      makeCompileArgsGo cwd banned itr (acc ++ [arg]) incs hx
    else if arg = "-x" then
      let r := handleTwoPartArg arg itr acc
      makeCompileArgsGo cwd banned r.2 r.1 incs true
    else if arg = "-Xpreprocessor" then
      let r := handleTwoPartArg arg itr acc
      makeCompileArgsGo cwd banned r.2 r.1 incs hx
    else if pathArgsList.contains arg then
      let r := handleTwoPartIncludeArg arg itr acc cwd incs
      makeCompileArgsGo cwd banned r.2.2 r.1 r.2.1 hx
    else
      let r := handleOnePartIncludeArg arg acc cwd incs
      makeCompileArgsGo cwd banned itr r.1 r.2 hx
termination_by l _ _ _ => l.length
decreasing_by
all_goals
  first
    | (simp; omega)
    | (cases itr <;> simp [handleTwoPartArg, handleTwoPartIncludeArg] <;> omega)

/-- Embeds `_make_compile_args`. -/
def makeCompileArgs (cwd : String) (args extra banned : List String) :
    CompileArgs :=
  makeCompileArgsGo cwd banned (args ++ extra) [] [] false

/-- The normalizer exactly as the specification's table states it (spec
§4.1): iterate `argv` then `extra` in order; skip elements equal to a
member of `banned`; otherwise classify each element by the table rows,
consuming the following token for the two-part flags. -/
def specMakeArgsGo (cwd : String) (banned : List String) :
    List String → List String → List String → Bool → CompileArgs
  | [], out, forced, hx => ⟨out, .pathSet forced, hx⟩
  | a :: rest, out, forced, hx =>
    if banned.contains a then
      specMakeArgsGo cwd banned rest out forced hx
    else if a = "-nostdinc" ∨ "-D".data.isPrefixOf a.data ∨
        "-W".data.isPrefixOf a.data ∨ "-std=".data.isPrefixOf a.data then
      specMakeArgsGo cwd banned rest (out ++ [a]) forced hx
    else if a = "-x" then
      match rest with
      | [] => specMakeArgsGo cwd banned [] (out ++ [a]) forced true
      | v :: rest' => specMakeArgsGo cwd banned rest' (out ++ [a, v]) forced true
    else if a = "-Xpreprocessor" then
      match rest with
      | [] => specMakeArgsGo cwd banned [] (out ++ [a]) forced hx
      | v :: rest' => specMakeArgsGo cwd banned rest' (out ++ [a, v]) forced hx
    else if pathArgsList.contains a then
      match rest with
      | [] => specMakeArgsGo cwd banned [] (out ++ [a]) forced hx
      | v :: rest' =>
        let np := makeAbsolutePath cwd v
        specMakeArgsGo cwd banned rest' (out ++ [a, np])
          (if a = "-include" then insertNew np forced else forced) hx
    else
      match pathArgsList.find? (fun pre => pre.data.isPrefixOf a.data) with
      | some pre =>
        let np : String := makeAbsolutePath cwd ⟨a.data.drop pre.data.length⟩
        specMakeArgsGo cwd banned rest (out ++ [⟨pre.data ++ np.data⟩])
          (if pre = "-include" then insertNew np forced else forced) hx
      | none => specMakeArgsGo cwd banned rest out forced hx
termination_by l _ _ _ => l.length
decreasing_by all_goals simp <;> omega

/-- The normalizer as the specification's table describes it. -/
def specMakeArgs (cwd : String) (args extra banned : List String) :
    CompileArgs :=
  specMakeArgsGo cwd banned (args ++ extra) [] [] false

/-! ### In-memory indices (`_Index`) -/

structure LocationInFile where
  line : Nat
  column : Nat
deriving DecidableEq

structure ReferenceData where
  is_definition : Bool
  kind : Nat
deriving DecidableEq

structure FileInclusion where
  included_path : String
  line : Nat
  column : Nat
deriving DecidableEq

/-- Python's tuple comparison `ref > old_ref` on the
`(is_definition, kind)` namedtuples (`False < True` for booleans). -/
def refGtb (r o : ReferenceData) : Bool :=
  (r.is_definition && !o.is_definition) ||
    (r.is_definition == o.is_definition && decide (o.kind < r.kind))

/-- Association-list lookup (first binding wins), modelling Python
`dict.get`. -/
def alistFind {κ α : Type} [DecidableEq κ] (k : κ) :
    List (κ × α) → Option α
  | [] => none
  | (k', v) :: rest => if k' = k then some v else alistFind k rest

/-- Association-list assignment, modelling Python `dict.__setitem__`
(insertion order preserved, new keys appended). -/
def alistSet {κ α : Type} [DecidableEq κ] (k : κ) (v : α) :
    List (κ × α) → List (κ × α)
  | [] => [(k, v)]
  | (k', v') :: rest =>
    if k' = k then (k, v) :: rest else (k', v') :: alistSet k v rest

structure Index where
  filename : String
  cwd : String
  args : CompileArgs
  includes : List FileInclusion
  references_by_usr : List (String × List (LocationInFile × ReferenceData))
  file_id : Option Nat
  is_included : Bool
  child_args : CompileArgs
deriving DecidableEq

/-- Embeds `_Index.__init__`.  The second component of the upgraded
`child_args` reproduces the source's constructor call
`_CompileArgs(all_args, self.cwd, True)` verbatim: the working directory
is passed where the `includes` field belongs. -/
def mkIndex (cmd : CompileCommand) : Index :=
  let childArgs :=
    if !cmd.args.has_x && isCppSource cmd.filename then
      CompileArgs.mk ("-x" :: "c++" :: cmd.args.all_args)
        (.strVal cmd.current_dir) true
    else cmd.args
  { filename := cmd.filename, cwd := cmd.current_dir, args := cmd.args,
    includes := [], references_by_usr := [], file_id := none,
    is_included := cmd.is_included, child_args := childArgs }

/-- Embeds `_Index.add_reference`. -/
def Index.addReference (idx : Index) (usr : String) (loc : LocationInFile)
    (ref : ReferenceData) : Index :=
  match alistFind usr idx.references_by_usr with
  | none =>
    { idx with references_by_usr :=
        alistSet usr [(loc, ref)] idx.references_by_usr }
  | some refs =>
    match alistFind loc refs with
    | none =>
      { idx with references_by_usr :=
          alistSet usr (alistSet loc ref refs) idx.references_by_usr }
    | some oldRef =>
      if refGtb ref oldRef then
        { idx with references_by_usr :=
            alistSet usr (alistSet loc ref refs) idx.references_by_usr }
      else idx

/-- Python `set.add` for `_FileInclusion` values. -/
def insertIncl (i : FileInclusion) (l : List FileInclusion) :
    List FileInclusion :=
  if l.contains i then l else l ++ [i]

/-- Embeds `_Index.add_include`. -/
def Index.addInclude (idx : Index) (inc : FileInclusion) : Index :=
  { idx with includes := insertIncl inc idx.includes }

/-- Embeds `_Index.make_child_compile_command`. -/
def Index.makeChildCompileCommand (idx : Index) (childFilename : String) :
    CompileCommand :=
  ⟨childFilename, idx.child_args, idx.cwd, true⟩

/-! ### The store (`.yacbi/index.db`), modelled as explicit state -/

structure FileRow where
  id : Nat
  path : String
  working_dir : String
  last_update : Int
  is_included : Bool
deriving DecidableEq

structure CompileArgRow where
  id : Nat
  file_id : Nat
  arg : String
deriving DecidableEq

structure IncludeRow where
  including_file_id : Nat
  included_file_id : Nat
  line : Nat
  column : Nat
deriving DecidableEq

structure SymbolRow where
  id : Nat
  usr : String
deriving DecidableEq

structure RefRow where
  symbol_id : Nat
  file_id : Nat
  line : Nat
  column : Nat
  kind : Nat
  is_definition : Bool
deriving DecidableEq

structure DBState where
  files : List FileRow
  compile_args : List CompileArgRow
  includes : List IncludeRow
  symbols : List SymbolRow
  refs : List RefRow
  next_file_id : Nat
  next_arg_id : Nat
  next_symbol_id : Nat
deriving DecidableEq

/-- SQLite enforces foreign keys per connection: a fresh connection has
`PRAGMA foreign_keys` OFF.  `_init_db` turns the pragma on only for its
own throwaway connection, while `_connect_to_db` — the connection used by
`update` and the queries — runs no pragma, so it does not enforce or
cascade foreign keys. -/
def connectToDbForeignKeys : Bool := false

/-- Models `DELETE FROM files WHERE id = ?` on a connection whose
foreign-key pragma is `fk`.  With enforcement on, the schema's
`ON DELETE CASCADE` clauses delete the file's `compile_args` and `refs`
rows and every `includes` row naming it at either endpoint; with
enforcement off only the `files` row disappears. -/
def deleteFileRow (fk : Bool) (db : DBState) (fid : Nat) : DBState :=
  let db' := { db with files := db.files.filter (fun f => f.id != fid) }
  if fk then
    { db' with
      compile_args := db'.compile_args.filter (fun a => a.file_id != fid),
      refs := db'.refs.filter (fun r => r.file_id != fid),
      includes := db'.includes.filter
        (fun i => i.including_file_id != fid && i.included_file_id != fid) }
  else db'

/-- Runs `SELECT ... FROM files WHERE path = ? LIMIT 1` (first row wins). -/
def findFileByPath (db : DBState) (path : String) : Option FileRow :=
  db.files.find? (fun f => f.path == path)

/-! ### Sorting (model of SQL `ORDER BY`) -/

def insSortedBy {α : Type} (le : α → α → Bool) (a : α) :
    List α → List α
  | [] => [a]
  | b :: bs => if le a b then a :: b :: bs else b :: insSortedBy le a bs

/-- Insertion sort with a boolean comparator; used to model the
deterministic row order produced by `ORDER BY`. -/
def sortListBy {α : Type} (le : α → α → Bool) (l : List α) : List α :=
  l.foldr (insSortedBy le) []

theorem mem_insSortedBy {α : Type} (le : α → α → Bool) (a x : α)
    (l : List α) : x ∈ insSortedBy le a l ↔ x = a ∨ x ∈ l := by
  induction l with
  | nil => simp [insSortedBy]
  | cons b bs ih =>
    simp only [insSortedBy]
    split
    · simp
    · simp [ih]
      tauto

theorem mem_sortListBy {α : Type} (le : α → α → Bool) (x : α)
    (l : List α) : x ∈ sortListBy le l ↔ x ∈ l := by
  induction l with
  | nil => simp [sortListBy]
  | cons b bs ih =>
    simp only [sortListBy, List.foldr_cons] at *
    rw [mem_insSortedBy, ih]
    simp

/-- Lexicographic byte-wise comparison of strings (model of SQLite's
default text ordering for the paths appearing here). -/
def charListLe : List Char → List Char → Bool
  | [], _ => true
  | _ :: _, [] => false
  | a :: as, b :: bs =>
    if a.toNat < b.toNat then true
    else if b.toNat < a.toNat then false
    else charListLe as bs

def pathLe (a b : String) : Bool := charListLe a.data b.data

/-- A `NULL` sorts before every text value in ascending SQLite order. -/
def optPathLe : Option String → Option String → Bool
  | none, _ => true
  | some _, none => false
  | some a, some b => pathLe a b

/-! ### The read-only queries -/

/-- The `_KIND_TO_DESC` table with its `.get(kind, "???")` default. -/
def kindToDesc (k : Nat) : String :=
  match alistFind k [(1, "type declaration"), (2, "struct declaration"),
    (3, "union declaration"), (4, "class declaration"),
    (5, "enum declaration"), (6, "member declaration"),
    (7, "enum constant declaration"), (8, "function declaration"),
    (9, "variable declaration"), (10, "argument declaration"),
    (20, "typedef declaration"), (21, "method declaration"),
    (22, "namespace declaration"), (24, "constructor declaration"),
    (25, "destructor declaration"), (26, "conversion function declaration"),
    (27, "template type parameter"), (28, "non-type template parameter"),
    (29, "template template parameter"),
    (30, "function template declaration"),
    (31, "class template declaration"),
    (32, "class template partial specialization"), (33, "namespace alias"),
    (43, "type reference"), (44, "base specifier"),
    (45, "template reference"), (46, "namespace reference"),
    (47, "member reference"), (48, "label reference"),
    (49, "overloaded declaration reference"), (100, "expression"),
    (101, "reference"), (102, "member reference"), (103, "function call"),
    (501, "macro definition"), (502, "macro instantiation")] with
  | some d => d
  | none => "???"

structure SrcLocation where
  filename : Option String
  line : Nat
  column : Nat
deriving DecidableEq

structure ReferenceOut where
  location : SrcLocation
  is_definition : Bool
  kind : Nat
  description : String
deriving DecidableEq

/-- A joined `refs ⟕ files` row: `(f.path, r.line, r.column, r.kind,
r.is_definition)`; a dangling `file_id` yields a `NULL` path. -/
structure JoinedRef where
  path : Option String
  line : Nat
  column : Nat
  kind : Nat
  is_definition : Bool
deriving DecidableEq

def joinRef (db : DBState) (r : RefRow) : JoinedRef :=
  ⟨(db.files.find? (fun f => f.id == r.file_id)).map (·.path),
   r.line, r.column, r.kind, r.is_definition⟩

/-- Order `f.path ASC, r.line ASC, r."column" ASC`. -/
def joinedRefLe (a b : JoinedRef) : Bool :=
  if a.path = b.path then
    if a.line = b.line then a.column ≤ b.column else a.line < b.line
  else optPathLe a.path b.path

/-- Order `r.is_definition DESC, f.path ASC, r.line ASC,
r."column" ASC`. -/
def joinedRefDefLe (a b : JoinedRef) : Bool :=
  if a.is_definition = b.is_definition then joinedRefLe a b
  else a.is_definition && !b.is_definition

/-- Runs `SELECT id FROM symbols WHERE usr = ? LIMIT 1`. -/
def firstSymbolId (db : DBState) (usr : String) : Option Nat :=
  (db.symbols.find? (fun s => s.usr == usr)).map (·.id)

def jrefToOut (isDef : Bool) (t : JoinedRef) : ReferenceOut :=
  ⟨⟨t.path, t.line, t.column⟩, isDef, t.kind, kindToDesc t.kind⟩

/-- Embeds `query_definitions`. -/
def queryDefinitions (db : DBState) (usr : String) : List ReferenceOut :=
  match firstSymbolId db usr with
  | none => []
  | some sid =>
    let rows := (db.refs.filter
        (fun r => r.is_definition && r.symbol_id == sid)).map (joinRef db)
    (sortListBy joinedRefLe rows).map (jrefToOut true)

/-- Embeds `query_references`. -/
def queryReferences (db : DBState) (usr : String) : List ReferenceOut :=
  match firstSymbolId db usr with
  | none => []
  | some sid =>
    let rows := (db.refs.filter (fun r => r.symbol_id == sid)).map (joinRef db)
    (sortListBy joinedRefDefLe rows).map (fun t => jrefToOut t.is_definition t)

/-- Embeds `query_subtypes`. -/
def querySubtypes (db : DBState) (usr : String) : List ReferenceOut :=
  match firstSymbolId db usr with
  | none => []
  | some sid =>
    let rows := (db.refs.filter
        (fun r => r.symbol_id == sid && r.kind == 44)).map (joinRef db)
    (sortListBy joinedRefLe rows).map (fun t => jrefToOut t.is_definition t)

/-- A joined `includes ⟕ files` row for `query_including_files`. -/
def joinIncl (db : DBState) (i : IncludeRow) : SrcLocation :=
  ⟨(db.files.find? (fun f => f.id == i.including_file_id)).map (·.path),
   i.line, i.column⟩

/-- Order `f.path ASC, i.line ASC`. -/
def inclLocLe (a b : SrcLocation) : Bool :=
  if a.filename = b.filename then a.line ≤ b.line
  else optPathLe a.filename b.filename

/-- Embeds `query_including_files`. -/
def queryIncludingFiles (db : DBState) (includedFile : String) :
    List SrcLocation :=
  match findFileByPath db includedFile with
  | none => []
  | some f =>
    let rows := (db.includes.filter
        (fun i => i.included_file_id == f.id)).map (joinIncl db)
    sortListBy inclLocLe rows

/-- Embeds `query_compile_args`. -/
def queryCompileArgs (db : DBState) (filename : String) :
    Option (List String) :=
  match findFileByPath db filename with
  | none => none
  | some f =>
    some ((sortListBy (fun a b => decide (a.id ≤ b.id))
        (db.compile_args.filter (fun a => a.file_id == f.id))).map (·.arg))

/-! ### External collaborators -/

/-- The filesystem: each path's mtime, `none` when the path does not
exist. -/
def FS : Type := String → Option Int

/-- The compilation database adapter: the canonical paths it lists, each
with the compile command `get_compile_command` would build for it
(`none` models clang's `getCompileCommands` coming back empty). -/
def CDB : Type := List (String × Option CompileCommand)

def cdbPaths (cdb : CDB) : List String :=
  cdb.foldl (fun acc e => insertNew e.1 acc) []

/-- Embeds `_CompilationDatabase.get_compile_command`. -/
def getCompileCommand (cdb : CDB) (p : String) : Option CompileCommand :=
  match alistFind p cdb with
  | some (some c) => some c
  | _ => none

/-! ### The file manager (`_FileManager`) -/

structure FMState where
  root : String
  now : Int
  visited : List String
  sources_to_add : List String
  sources_to_update : List String
  headers_to_update : List String
  inlines_to_update : List String
  inlines : List String
deriving DecidableEq

/-- Embeds `_FileManager.should_index`. -/
def shouldIndex (fm : FMState) (path : String) : Bool × FMState :=
  if fm.visited.contains path then (false, fm)
  else
    let fm := { fm with visited := fm.visited ++ [path] }
    if fm.inlines_to_update.contains path then
      (true, { fm with inlines_to_update := fm.inlines_to_update.erase path })
    else if fm.headers_to_update.contains path then
      (true, { fm with headers_to_update := fm.headers_to_update.erase path })
    else if fm.sources_to_add.contains path ||
        fm.sources_to_update.contains path then
      (false, fm)
    else
      (fm.root.data.isPrefixOf path.data, fm)

/-- A row of `_query_existing_files` (a `_FileManager.File` snapshot). -/
structure FileSnap where
  path : String
  last_update : Int
  is_included : Bool
deriving DecidableEq

/-- Embeds `_FileManager.File.needs_update`
(`get_mtime() >= last_update`); a missing file would raise in the
source, which the modelled flows never reach. -/
def needsUpdate (fs : FS) (f : FileSnap) : Bool :=
  match fs f.path with
  | some m => decide (f.last_update ≤ m)
  | none => false

/-- Embeds `_FileManager._query_existing_files` (`ORDER BY path`). -/
def queryExistingFiles (db : DBState) : List FileSnap :=
  sortListBy (fun a b => pathLe a.path b.path)
    (db.files.map (fun f => ⟨f.path, f.last_update, f.is_included⟩))

/-- Embeds `_FileManager._remove_files`: demote a path that is still the
target of an `includes` edge to `is_included = 1`, delete the rest (on a
connection whose foreign-key pragma is `fk`), and return the set of
paths actually removed. -/
def removeFilesDb (fk : Bool) (db : DBState) (paths : List String) :
    DBState × List String :=
  paths.foldl
    (fun acc path =>
      match findFileByPath acc.1 path with
      | some f =>
        if acc.1.includes.any (fun i => i.included_file_id == f.id) then
          let files' := acc.1.files.map fun g =>
            if g.id = f.id then { g with is_included := true } else g
          ({ acc.1 with files := files' }, acc.2)
        else (deleteFileRow fk acc.1 f.id, acc.2 ++ [path])
      | none =>
        -- `file_id` is `None`: the EXISTS query compares against NULL
        -- (false) and the DELETE matches nothing, but the path still
        -- lands in the removed set.
        (acc.1, acc.2 ++ [path]))
    (db, [])

/-- The first loop of `_FileManager.__init__`: split the stored files
into the set whose paths no longer exist and the set of existing root
sources. -/
def initScan (fs : FS) (files : List FileSnap) :
    List String × List String :=
  files.foldl
    (fun acc f =>
      if fs f.path = none then (insertNew f.path acc.1, acc.2)
      else if !f.is_included then (acc.1, insertNew f.path acc.2)
      else acc)
    ([], [])

structure WorkAcc where
  visited : List String
  sources_to_update : List String
  headers_to_update : List String
  inlines_to_update : List String
deriving DecidableEq

/-- The second loop of `_FileManager.__init__`: distribute the surviving
stored files over `visited` and the three update work sets
(`globMatch` models `fnmatch.fnmatchcase`). -/
def initWork (globMatch : String → String → Bool) (fs : FS)
    (inlinePats : List String) (removed : List String)
    (files : List FileSnap) : WorkAcc :=
  files.foldl
    (fun acc f =>
      if removed.contains f.path then acc
      else if needsUpdate fs f then
        if f.is_included then
          if inlinePats.any (fun pat => globMatch f.path pat) then
            { acc with inlines_to_update := insertNew f.path acc.inlines_to_update }
          else
            { acc with headers_to_update := insertNew f.path acc.headers_to_update }
        else
          { acc with sources_to_update := insertNew f.path acc.sources_to_update }
      else { acc with visited := insertNew f.path acc.visited })
    ⟨[], [], [], []⟩

/-- Embeds `_FileManager.__init__` (including the `_remove_files` store
writes it performs). -/
def initFM (globMatch : String → String → Bool) (fk : Bool) (now : Int)
    (root : String) (fs : FS) (cdb : CDB) (inlinePats : List String)
    (db : DBState) : FMState × DBState :=
  let rootSep : String := ⟨root.data ++ ['/']⟩
  let files := queryExistingFiles db
  let compDbPaths := cdbPaths cdb
  let scan := initScan fs files
  let pathsToRemove := scan.2.filter (fun p => !compDbPaths.contains p)
  let sourcesToAdd := compDbPaths.filter (fun p => !scan.2.contains p)
  let rd := removeFilesDb fk db pathsToRemove
  let removed := rd.2.foldl (fun acc p => insertNew p acc) scan.1
  let work := initWork globMatch fs inlinePats removed files
  ({ root := rootSep, now := now, visited := work.visited,
     sources_to_add := sourcesToAdd,
     sources_to_update := work.sources_to_update,
     headers_to_update := work.headers_to_update,
     inlines_to_update := work.inlines_to_update,
     inlines := inlinePats }, rd.1)

/-- Duplicate-free image of a list of ids (a Python set built from query
results). -/
def natSet (l : List Nat) : List Nat :=
  l.foldl (fun acc i => if acc.contains i then acc else acc ++ [i]) []

/-- The orphan set computed by one iteration of
`remove_orphaned_includes`: ids of `is_included` files that no
`includes` row points at. -/
def orphansOf (db : DBState) : List Nat :=
  let allInc := natSet ((db.files.filter (fun f => f.is_included)).map (·.id))
  let included := natSet (db.includes.map (·.included_file_id))
  allInc.filter (fun i => !included.contains i)

theorem length_filter_lt {α : Type} {p : α → Bool} {l : List α} {a : α}
    (ha : a ∈ l) (hpa : p a = false) : (l.filter p).length < l.length := by
  induction l with
  | nil => cases ha
  | cons b bs ih =>
    rcases List.mem_cons.mp ha with h | h
    · subst h
      simp only [List.filter_cons, hpa]
      have := List.length_filter_le p bs
      simp
      omega
    · by_cases hb : p b
      · simp only [List.filter_cons, hb]
        have := ih h
        simp
        omega
      · simp only [List.filter_cons, Bool.not_eq_true] at *
        simp only [hb]
        have := List.length_filter_le p bs
        simp
        omega

theorem deleteFileRow_files (fk : Bool) (db : DBState) (fid : Nat) :
    (deleteFileRow fk db fid).files = db.files.filter (fun f => f.id != fid) := by
  unfold deleteFileRow
  split <;> rfl

theorem foldl_deleteFileRow_files (fk : Bool) (ids : List Nat)
    (db : DBState) :
    (ids.foldl (fun d i => deleteFileRow fk d i) db).files =
      db.files.filter (fun f => !ids.contains f.id) := by
  induction ids generalizing db with
  | nil => simp
  | cons i rest ih =>
    simp only [List.foldl_cons, ih, deleteFileRow_files,
      List.filter_filter]
    congr 1
    ext f
    simp only [List.contains_cons, bne, Bool.not_or]
    cases h1 : (f.id == i) <;> cases h2 : rest.contains f.id <;> simp_all

theorem orphan_mem_files {db : DBState} {o : Nat}
    (ho : o ∈ orphansOf db) :
    ∃ f ∈ db.files, f.is_included = true ∧ f.id = o := by
  unfold orphansOf at ho
  simp only [List.mem_filter] at ho
  have h1 := ho.1
  unfold natSet at h1
  -- membership in the fold equals membership in the original list
  have hmem : ∀ (l : List Nat) (acc : List Nat) (x : Nat),
      x ∈ l.foldl (fun a i => if a.contains i then a else a ++ [i]) acc →
      x ∈ acc ∨ x ∈ l := by
    intro l
    induction l with
    | nil => intro acc x h; exact Or.inl h
    | cons b bs ih =>
      intro acc x h
      simp only [List.foldl_cons] at h
      rcases ih _ x h with h' | h'
      · by_cases hb : acc.contains b
        · simp only [hb, if_pos] at h'
          exact Or.inl h'
        · simp only [hb, if_neg, Bool.false_eq_true, not_false_iff] at h'
          rcases List.mem_append.mp h' with h'' | h''
          · exact Or.inl h''
          · simp at h''
            subst h''
            exact Or.inr (List.mem_cons_self _ _)
      · exact Or.inr (List.mem_cons_of_mem _ h')
  rcases hmem _ _ _ h1 with h | h
  · cases h
  · simp only [List.mem_map, List.mem_filter] at h
    obtain ⟨f, ⟨hf, hinc⟩, hid⟩ := h
    exact ⟨f, hf, hinc, hid⟩

/-- Embeds `_FileManager.remove_orphaned_includes`: the fixed-point loop
deleting orphan include files until none remains (on a connection whose
foreign-key pragma is `fk`). -/
def removeOrphans (fk : Bool) (db : DBState) : DBState :=
  let orphans := orphansOf db
  if h : orphans = [] then db
  else removeOrphans fk (orphans.foldl (fun d i => deleteFileRow fk d i) db)
termination_by db.files.length
decreasing_by
  rw [foldl_deleteFileRow_files]
  rcases List.exists_mem_of_ne_nil _ h with ⟨o, ho⟩
  obtain ⟨f, hf, _, hid⟩ := orphan_mem_files ho
  refine length_filter_lt hf ?_
  simp [hid, ho]

/-! ### Persisting indices (`save_indices` and helpers) -/

/-- Embeds `_FileManager._save_file` (insert with the next rowid, or
update the mutable columns). -/
def saveFile (now : Int) (db : DBState) (path cwd : String)
    (isIncluded : Bool) : Nat × DBState :=
  match findFileByPath db path with
  | none =>
    let fid := db.next_file_id
    (fid, { db with
      files := db.files ++ [⟨fid, path, cwd, now, isIncluded⟩],
      next_file_id := fid + 1 })
  | some f =>
    let files' := db.files.map fun g =>
      if g.id = f.id then
        { g with working_dir := cwd, last_update := now,
                 is_included := isIncluded }
      else g
    (f.id, { db with files := files' })

/-- Embeds `_FileManager._save_args` (delete then bulk insert with fresh
autoincrement ids). -/
def saveArgs (db : DBState) (fid : Nat) (args : List String) : DBState :=
  let db := { db with
    compile_args := db.compile_args.filter (fun a => a.file_id != fid) }
  args.foldl
    (fun db arg =>
      { db with
        compile_args := db.compile_args ++ [⟨db.next_arg_id, fid, arg⟩],
        next_arg_id := db.next_arg_id + 1 })
    db

/-- Runs `SELECT id FROM symbols WHERE usr = ? LIMIT 1`, interning on demand. -/
def internSymbol (db : DBState) (usr : String) : Nat × DBState :=
  match db.symbols.find? (fun s => s.usr == usr) with
  | some s => (s.id, db)
  | none =>
    (db.next_symbol_id,
     { db with symbols := db.symbols ++ [⟨db.next_symbol_id, usr⟩],
               next_symbol_id := db.next_symbol_id + 1 })

/-- Embeds `_FileManager._save_refs`. -/
def saveRefs (db : DBState) (fid : Nat)
    (refsByUsr : List (String × List (LocationInFile × ReferenceData))) :
    DBState :=
  let db := { db with refs := db.refs.filter (fun r => r.file_id != fid) }
  refsByUsr.foldl
    (fun db ur =>
      let sdb := internSymbol db ur.1
      ur.2.foldl
        (fun db lr =>
          { db with refs := db.refs ++
              [⟨sdb.1, fid, lr.1.line, lr.1.column, lr.2.kind,
                lr.2.is_definition⟩] })
        sdb.2)
    db

/-- Embeds `_FileManager._save_includes` for one index: delete its
outbound edges, resolve every in-memory edge to a target file id
(creating a dummy entry when `should_index` admits the path), accumulate
the resolved rows and bulk-insert them at the end. -/
def saveIncludes (fm : FMState) (db : DBState) (idx : Index) :
    FMState × DBState :=
  let fid := idx.file_id.getD 0
  let db := { db with
    includes := db.includes.filter (fun i => i.including_file_id != fid) }
  let step := idx.includes.foldl
    (fun (acc : FMState × DBState × List IncludeRow) inc =>
      match findFileByPath acc.2.1 inc.included_path with
      | some f => (acc.1, acc.2.1, acc.2.2 ++ [⟨fid, f.id, inc.line, inc.column⟩])
      | none =>
        let si := shouldIndex acc.1 inc.included_path
        if si.1 then
          -- the file must have been empty, so a dummy entry is created
          let fidDb := saveFile si.2.now acc.2.1 inc.included_path si.2.root true
          let db' := saveArgs fidDb.2 fidDb.1 idx.child_args.all_args
          (si.2, db', acc.2.2 ++ [⟨fid, fidDb.1, inc.line, inc.column⟩])
        else
          -- the file is not intended to be stored
          (si.2, acc.2.1, acc.2.2))
    (fm, db, [])
  (step.1, { step.2.1 with includes := step.2.1.includes ++ step.2.2 })

/-- Embeds `_FileManager.save_indices`: phase A saves each index's file
row, args and refs (assigning `file_id`), phase B resolves and writes the
include edges. -/
def saveIndices (fm : FMState) (db : DBState) (idxs : List Index) :
    FMState × DBState :=
  let phaseA := idxs.foldl
    (fun (acc : DBState × List Index) idx =>
      let fidDb := saveFile fm.now acc.1 idx.filename idx.cwd idx.is_included
      let idx' := { idx with file_id := some fidDb.1 }
      let db := saveArgs fidDb.2 fidDb.1 idx'.args.all_args
      let db := saveRefs db fidDb.1 idx'.references_by_usr
      (db, acc.2 ++ [idx']))
    (db, [])
  phaseA.2.foldl (fun acc idx => saveIncludes acc.1 acc.2 idx)
    (fm, phaseA.1)

/-! ### Reconstructed compile commands and the iterator (`next`) -/

/-- Embeds `_FileManager._query_compile_command` (the source would raise
on a path without a `files` row; that case is modelled as `none`). -/
def queryCompileCommandDb (db : DBState) (path : String) :
    Option CompileCommand :=
  match findFileByPath db path with
  | none => none
  | some f =>
    let args := (sortListBy (fun a b => decide (a.id ≤ b.id))
        (db.compile_args.filter (fun a => a.file_id == f.id))).map (·.arg)
    some ⟨path, makeCompileArgs f.working_dir args [] [], f.working_dir,
          f.is_included⟩

/-- Order `f.last_update DESC, f.id ASC` on joined includer rows. -/
def includerLe (a b : FileRow) : Bool :=
  if a.last_update = b.last_update then a.id ≤ b.id
  else b.last_update < a.last_update

/-- Embeds `_FileManager._query_including_file`: one file including
`path`, most recently updated first (edges whose includer row is missing
join to NULL and are not selected here). -/
def queryIncludingFile (db : DBState) (path : String) : Option String :=
  match findFileByPath db path with
  | none => none
  | some f =>
    let edges := db.includes.filter (fun i => i.included_file_id == f.id)
    let rows := edges.filterMap
      (fun i => db.files.find? (fun g => g.id == i.including_file_id))
    ((sortListBy includerLe rows).head?).map (·.path)

/-- The inline-drain loop inside `_FileManager.next`: pop inline paths
until one has a stored includer; returns the found command and visited
path together with the remaining inline work list. -/
def fmNextInlineGo (db : DBState) :
    List String → Option (Option CompileCommand × String) × List String
  | [] => (none, [])
  | inl :: rest =>
    match queryIncludingFile db inl with
    | some path => (some (queryCompileCommandDb db path, path), rest)
    | none => fmNextInlineGo db rest

/-- Embeds `_FileManager.next`.  The result `(none, _)` models
`StopIteration`; `(some none, _)` models returning Python `None` (a
missing compile command).  Python's `set.pop()` order is modelled as
taking the head of the insertion-ordered list. -/
def fmNext (cdb : CDB) (db : DBState) (fm : FMState) :
    Option (Option CompileCommand) × FMState :=
  match fm.sources_to_add, fm.sources_to_update, fm.headers_to_update with
  | p :: rest, _, _ =>
    (some (getCompileCommand cdb p),
     { fm with sources_to_add := rest, visited := insertNew p fm.visited })
  | [], p :: rest, _ =>
    let cmd := match getCompileCommand cdb p with
      | some c => some c
      | none => queryCompileCommandDb db p
    (some cmd,
     { fm with sources_to_update := rest, visited := insertNew p fm.visited })
  | [], [], p :: rest =>
    (some (queryCompileCommandDb db p),
     { fm with headers_to_update := rest, visited := insertNew p fm.visited })
  | [], [], [] =>
    match fmNextInlineGo db fm.inlines_to_update with
    | (some (cmd, path), rest) =>
      (some cmd,
       { fm with inlines_to_update := rest,
                 visited := insertNew path fm.visited })
    | (none, rest) => (none, { fm with inlines_to_update := rest })

/-! ### The indexer (`Indexer`) -/

/-- A parser AST cursor: location (file, line, column), the USR of the
referenced declaration (if any), whether it is a definition, its kind
code, and its children. -/
inductive Cursor where
  | mk (locFile : Option String) (line column : Nat)
      (referencedUsr : Option String) (isDefinition : Bool) (kind : Nat)
      (children : List Cursor)

/-- One record of `unit.get_includes()`: the including source file (when
known), the included file's reported name, and the directive location. -/
structure IncEntry where
  source : Option String
  includeName : String
  line : Nat
  column : Nat
deriving DecidableEq

/-- The data the external parser produces for one translation unit
(diagnostics are pure logging and are not modelled). -/
structure ParseResult where
  cursor : Cursor
  includeEntries : List IncEntry

/-- The `Indexer` object state: the file-manager it mutates through
`should_index`, the root command's data, and `idx_by_path`.  `procCwd`
models the process working directory consulted by `os.path.abspath`. -/
structure IState where
  fm : FMState
  filename : String
  cwd : String
  args : CompileArgs
  srcChildArgs : CompileArgs
  is_included : Bool
  idx_by_path : List (String × Index)
  procCwd : String

/-- Embeds `Indexer.__init__`. -/
def mkIndexer (procCwd : String) (fm : FMState) (cmd : CompileCommand) :
    IState :=
  let src := mkIndex cmd
  { fm := fm, filename := cmd.filename, cwd := cmd.current_dir,
    args := cmd.args, srcChildArgs := src.child_args,
    is_included := cmd.is_included,
    idx_by_path := [(cmd.filename, src)], procCwd := procCwd }

/-- Embeds `Indexer._get_index` (including `_make_child_index`): return
the cached index for `path`, or create one when `should_index` admits
the path. -/
def getIndex (ist : IState) (path : String) : Option Index × IState :=
  match alistFind path ist.idx_by_path with
  | some idx => (some idx, ist)
  | none =>
    let si := shouldIndex ist.fm path
    if si.1 then
      let child := mkIndex ⟨path, ist.srcChildArgs, ist.cwd, true⟩
      (some child,
       { ist with fm := si.2,
                  idx_by_path := alistSet path child ist.idx_by_path })
    else (none, { ist with fm := si.2 })

mutual
/-- Embeds `Indexer._find_references`: a cursor without a file recurses
into its children; a cursor in a file is attributed to that file's index
when one exists or is admitted, recording its reference and recursing;
when the file is rejected the walk stops for the whole subtree. -/
def findRefs (ist : IState) (c : Cursor) : IState :=
  match c with
  | .mk locFile line column refUsr isDef kind children =>
    match locFile with
    | none => findRefsList ist children
    | some name =>
      let path := makeAbsolutePath ist.procCwd name
      let gi := getIndex ist path
      match gi.1 with
      | none => gi.2
      | some idx =>
        let ist :=
          match refUsr with
          | some usr =>
            if usr ≠ "" ∧ usr ≠ "c:" then
              let updated := idx.addReference usr ⟨line, column⟩ ⟨isDef, kind⟩
              { gi.2 with idx_by_path := alistSet path updated gi.2.idx_by_path }
            else gi.2
          | none => gi.2
        findRefsList ist children

def findRefsList (ist : IState) : List Cursor → IState
  | [] => ist
  | c :: cs => findRefsList (findRefs ist c) cs
end

/-- Apply `idx.add_include` to the index stored under `key` (a no-op
when no index is cached for `key`, like `idx_by_path.get` returning
`None`). -/
def setIdxInclude (ist : IState) (key : String) (inc : FileInclusion) :
    IState :=
  match alistFind key ist.idx_by_path with
  | some idx =>
    { ist with idx_by_path := alistSet key (idx.addInclude inc) ist.idx_by_path }
  | none => ist

/-- The first loop of `Indexer._sort_includes`: for each forced include,
a pseudo-edge at `(0, 0)` on the source index (`self.src_index` is the
index stored under `self.filename`, both immutable). -/
def forcedPass (ist : IState) : IState :=
  (ist.args.includes.iterate).foldl
    (fun s inc => setIdxInclude s ist.filename ⟨inc, 0, 0⟩) ist

/-- The second loop of `Indexer._sort_includes`: attribute each reported
include directive to the in-memory index of its source file, when one
exists. -/
def enumPass (ist : IState) (incs : List IncEntry) : IState :=
  incs.foldl
    (fun s i =>
      match i.source with
      | some src =>
        setIdxInclude s src ⟨normpath i.includeName, i.line, i.column⟩
      | none => s)
    ist

/-- Embeds `Indexer._sort_includes`. -/
def sortIncludes (ist : IState) (incs : List IncEntry) : IState :=
  enumPass (if !ist.is_included then forcedPass ist else ist) incs

/-- One body of the `for cmd in file_manager` loop in `update`: build the
indexer, parse (externally), walk the AST, collect includes, and persist
through `save_indices`. -/
def processCmd (parse : CompileCommand → ParseResult) (procCwd : String)
    (cmd : CompileCommand) (fm : FMState) (db : DBState) :
    FMState × DBState :=
  let ist := mkIndexer procCwd fm cmd
  let pr := parse cmd
  let ist := findRefs ist pr.cursor
  let ist := sortIncludes ist pr.includeEntries
  saveIndices ist.fm db (ist.idx_by_path.map (·.2))

/-! ### Termination of the update loop

The loop measure is the total size of the four work sets.  `next` pops
an element, and the loop body can only shrink the work sets further
(`should_index` removes pending headers and inlines, never adds). -/

def fmMeasure (fm : FMState) : Nat :=
  fm.sources_to_add.length + fm.sources_to_update.length +
    fm.headers_to_update.length + fm.inlines_to_update.length

theorem length_erase_le {α : Type} [BEq α] (a : α) (l : List α) :
    (l.erase a).length ≤ l.length := by
  induction l with
  | nil => simp
  | cons b bs ih =>
    rw [List.erase_cons]
    split
    · simp
    · simpa using ih

theorem shouldIndex_measure_le (fm : FMState) (path : String) :
    fmMeasure (shouldIndex fm path).2 ≤ fmMeasure fm := by
  have he1 := length_erase_le path fm.inlines_to_update
  have he2 := length_erase_le path fm.headers_to_update
  unfold shouldIndex fmMeasure
  split
  · simp
  · dsimp only
    split
    · simp
      omega
    · split
      · simp
        omega
      · split <;> simp

theorem getIndex_measure_le (ist : IState) (path : String) :
    fmMeasure (getIndex ist path).2.fm ≤ fmMeasure ist.fm := by
  have h := shouldIndex_measure_le ist.fm path
  unfold getIndex
  split
  · simp
  · dsimp only
    split
    · simpa using h
    · simpa using h

mutual
theorem findRefs_measure_le (ist : IState) (c : Cursor) :
    fmMeasure (findRefs ist c).fm ≤ fmMeasure ist.fm := by
  match c with
  | .mk locFile line column refUsr isDef kind children =>
    match hl : locFile with
    | none =>
      rw [findRefs]
      exact findRefsList_measure_le ist children
    | some name =>
      rw [findRefs]
      have hgi := getIndex_measure_le ist (makeAbsolutePath ist.procCwd name)
      dsimp only
      split
      · exact hgi
      · refine le_trans (findRefsList_measure_le _ children) ?_
        split
        · split
          · dsimp only
            exact hgi
          · exact hgi
        · exact hgi

theorem findRefsList_measure_le (ist : IState) (cs : List Cursor) :
    fmMeasure (findRefsList ist cs).fm ≤ fmMeasure ist.fm := by
  match cs with
  | [] => rw [findRefsList]
  | c :: rest =>
    rw [findRefsList]
    calc fmMeasure (findRefsList (findRefs ist c) rest).fm
        ≤ fmMeasure (findRefs ist c).fm := findRefsList_measure_le _ rest
      _ ≤ fmMeasure ist.fm := findRefs_measure_le ist c
end

theorem setIdxInclude_fm (ist : IState) (key : String)
    (inc : FileInclusion) : (setIdxInclude ist key inc).fm = ist.fm := by
  unfold setIdxInclude
  split <;> rfl

theorem enumPass_fm (ist : IState) (incs : List IncEntry) :
    (enumPass ist incs).fm = ist.fm := by
  unfold enumPass
  induction incs generalizing ist with
  | nil => rfl
  | cons i rest ih =>
    simp only [List.foldl_cons]
    rw [ih]
    match i.source with
    | some src => exact setIdxInclude_fm ist src _
    | none => rfl

theorem forcedPass_fm (ist : IState) : (forcedPass ist).fm = ist.fm := by
  unfold forcedPass
  have hfold : ∀ (l : List String) (s : IState),
      (l.foldl (fun s inc => setIdxInclude s ist.filename ⟨inc, 0, 0⟩) s).fm
        = s.fm := by
    intro l
    induction l with
    | nil => intro s; rfl
    | cons p rest ih =>
      intro s
      simp only [List.foldl_cons]
      rw [ih, setIdxInclude_fm]
  exact hfold _ ist

theorem sortIncludes_fm (ist : IState) (incs : List IncEntry) :
    (sortIncludes ist incs).fm = ist.fm := by
  unfold sortIncludes
  rw [enumPass_fm]
  split
  · rw [forcedPass_fm]
  · rfl

theorem saveIncludes_measure_le (fm : FMState) (db : DBState)
    (idx : Index) : fmMeasure (saveIncludes fm db idx).1 ≤ fmMeasure fm := by
  unfold saveIncludes
  simp only
  have hfold : ∀ (l : List FileInclusion)
      (acc : FMState × DBState × List IncludeRow),
      fmMeasure (l.foldl (fun acc inc =>
        match findFileByPath acc.2.1 inc.included_path with
        | some f =>
          (acc.1, acc.2.1, acc.2.2 ++ [⟨idx.file_id.getD 0, f.id, inc.line, inc.column⟩])
        | none =>
          let si := shouldIndex acc.1 inc.included_path
          if si.1 then
            let fidDb := saveFile si.2.now acc.2.1 inc.included_path si.2.root true
            let db' := saveArgs fidDb.2 fidDb.1 idx.child_args.all_args
            (si.2, db', acc.2.2 ++ [⟨idx.file_id.getD 0, fidDb.1, inc.line, inc.column⟩])
          else (si.2, acc.2.1, acc.2.2)) acc).1 ≤ fmMeasure acc.1 := by
    intro l
    induction l with
    | nil => intro acc; simp
    | cons inc rest ih =>
      intro acc
      simp only [List.foldl_cons]
      refine le_trans (ih _) ?_
      match findFileByPath acc.2.1 inc.included_path with
      | some f => simp
      | none =>
        simp only
        split <;> simpa using shouldIndex_measure_le acc.1 inc.included_path
  exact hfold idx.includes (fm, _, [])

theorem saveIndices_measure_le (fm : FMState) (db : DBState)
    (idxs : List Index) : fmMeasure (saveIndices fm db idxs).1 ≤ fmMeasure fm := by
  unfold saveIndices
  simp only
  have hfold : ∀ (l : List Index) (acc : FMState × DBState),
      fmMeasure (l.foldl (fun acc idx => saveIncludes acc.1 acc.2 idx) acc).1
        ≤ fmMeasure acc.1 := by
    intro l
    induction l with
    | nil => intro acc; simp
    | cons idx rest ih =>
      intro acc
      simp only [List.foldl_cons]
      exact le_trans (ih _) (saveIncludes_measure_le acc.1 acc.2 idx)
  exact hfold _ _

theorem processCmd_measure_le (parse : CompileCommand → ParseResult)
    (procCwd : String) (cmd : CompileCommand) (fm : FMState)
    (db : DBState) :
    fmMeasure (processCmd parse procCwd cmd fm db).1 ≤ fmMeasure fm := by
  unfold processCmd
  refine le_trans (saveIndices_measure_le _ _ _) ?_
  rw [sortIncludes_fm]
  exact findRefs_measure_le (mkIndexer procCwd fm cmd) (parse cmd).cursor

theorem fmNextInlineGo_rest_length (db : DBState) (l : List String) :
    (fmNextInlineGo db l).2.length ≤ l.length ∧
      (∀ r, (fmNextInlineGo db l).1 = some r →
        (fmNextInlineGo db l).2.length < l.length) := by
  induction l with
  | nil => simp [fmNextInlineGo]
  | cons inl rest ih =>
    unfold fmNextInlineGo
    match queryIncludingFile db inl with
    | some path => simp
    | none =>
      simp only
      constructor
      · have := ih.1
        simp
        omega
      · intro r hr
        have := ih.2 r hr
        simp
        omega

theorem fmNext_measure_lt (cdb : CDB) (db : DBState) (fm : FMState)
    (co : Option CompileCommand) (fm' : FMState)
    (h : fmNext cdb db fm = (some co, fm')) :
    fmMeasure fm' < fmMeasure fm := by
  unfold fmNext at h
  match ha : fm.sources_to_add, hu : fm.sources_to_update,
      hh : fm.headers_to_update with
  | p :: rest, _, _ =>
    rw [ha] at h
    cases h
    simp [fmMeasure, ha]
  | [], p :: rest, _ =>
    rw [ha, hu] at h
    cases h
    simp [fmMeasure, ha, hu]
  | [], [], p :: rest =>
    rw [ha, hu, hh] at h
    cases h
    simp [fmMeasure, ha, hu, hh]
  | [], [], [] =>
    rw [ha, hu, hh] at h
    match hg : fmNextInlineGo db fm.inlines_to_update with
    | (some (cmd, path), rest) =>
      rw [hg] at h
      cases h
      have := (fmNextInlineGo_rest_length db fm.inlines_to_update).2 _
        (by rw [hg])
      rw [hg] at this
      simp only at this
      simp [fmMeasure, ha, hu, hh]
      omega
    | (none, rest) =>
      rw [hg] at h
      simp at h

/-! ### The driver (`update`) -/

inductive PyError where
  | attributeErrorNoneCommand
deriving DecidableEq

/-- The `for cmd in file_manager` loop of `update`.  A `None` command
(missing compile command) makes the body evaluate `cmd.filename` on
`None`, which raises `AttributeError`. -/
def updateLoop (parse : CompileCommand → ParseResult) (procCwd : String)
    (cdb : CDB) (fm : FMState) (db : DBState) :
    Except PyError (FMState × DBState) :=
  match h : fmNext cdb db fm with
  | (none, fm') => .ok (fm', db)
  | (some none, _) => .error .attributeErrorNoneCommand
  | (some (some cmd), fm') =>
    let r := processCmd parse procCwd cmd fm' db
    updateLoop parse procCwd cdb r.1 r.2
termination_by fmMeasure fm
decreasing_by
  exact lt_of_le_of_lt (processCmd_measure_le parse procCwd cmd fm' db)
    (fmNext_measure_lt cdb db fm _ fm' h)

/-- Embeds `update`: open the store on a fresh connection (foreign keys
not enabled), build the file manager, drain the iterator, reclaim
orphaned includes, and commit.  The parser, glob matcher, filesystem,
clock and process working directory are the external parameters. -/
def updateModel (globMatch : String → String → Bool)
    (parse : CompileCommand → ParseResult) (procCwd : String) (now : Int)
    (root : String) (fs : FS) (cdb : CDB) (inlinePats : List String)
    (db : DBState) : Except PyError DBState :=
  let fk := connectToDbForeignKeys
  let ini := initFM globMatch fk now root fs cdb inlinePats db
  match updateLoop parse procCwd cdb ini.1 ini.2 with
  | .error e => .error e
  | .ok r => .ok (removeOrphans fk r.2)

/-! ## Supporting lemmas -/

theorem makeArgsGo_eq_specGo (cwd : String) (banned : List String)
    (l acc incs : List String) (hx : Bool) :
    makeCompileArgsGo cwd banned l acc incs hx =
      specMakeArgsGo cwd banned l acc incs hx := by
  induction l, acc, incs, hx using makeCompileArgsGo.induct cwd banned with
  | case1 acc incs hx =>
    rw [makeCompileArgsGo.eq_def, specMakeArgsGo.eq_def]
  | case2 arg itr acc incs hx hban ih =>
    rw [makeCompileArgsGo.eq_def, specMakeArgsGo.eq_def]
    simp only [hban, if_true, ite_true, ih]
  | case3 arg itr acc incs hx hban hkeep ih =>
    rw [makeCompileArgsGo.eq_def, specMakeArgsGo.eq_def]
    simp_all
  | case4 itr acc incs hx hban hkeep r ih =>
    rw [makeCompileArgsGo.eq_def, specMakeArgsGo.eq_def]
    unfold_let r at ih
    clear r
    cases itr with
    | nil => simp_all [handleTwoPartArg]
    | cons v rest => simp_all [handleTwoPartArg]
  | case5 itr acc incs hx hban hkeep hx2 r ih =>
    rw [makeCompileArgsGo.eq_def, specMakeArgsGo.eq_def]
    unfold_let r at ih
    clear r
    cases itr with
    | nil => simp_all [handleTwoPartArg]
    | cons v rest => simp_all [handleTwoPartArg]
  | case6 arg itr acc incs hx hban hkeep hx2 hxp hpa r ih =>
    rw [makeCompileArgsGo.eq_def, specMakeArgsGo.eq_def]
    unfold_let r at ih
    clear r
    cases itr with
    | nil => simp_all [handleTwoPartIncludeArg]
    | cons v rest =>
      simp_all [handleTwoPartIncludeArg, List.getLast?_concat]
  | case7 arg itr acc incs hx hban hkeep hx2 hxp hpa r ih =>
    rw [makeCompileArgsGo.eq_def, specMakeArgsGo.eq_def]
    unfold_let r at ih
    clear r
    unfold handleOnePartIncludeArg at ih ⊢
    simp only [if_neg hban, if_neg hkeep, if_neg hx2, if_neg hxp, if_neg hpa]
    split <;>
      (rename_i heq
       simp only [heq] at ih ⊢
       try dsimp only at ih ⊢
       exact ih)

/-! ## The merge order of `add_reference` (for C4) -/

/-- The update `_Index.add_reference` applies to an existing entry:
`refs[loc] = ref if ref > old else old`. -/
def refMax (o r : ReferenceData) : ReferenceData := if refGtb r o then r else o

/-- The value left behind by a sequence of merges starting from `r`. -/
def refMaxFold (r : ReferenceData) (rs : List ReferenceData) :
    ReferenceData :=
  rs.foldl refMax r

/-- Numeric key realizing the Python tuple order on
`(is_definition, kind)`. -/
def keyPair (r : ReferenceData) : Nat × Nat :=
  ((if r.is_definition then 1 else 0), r.kind)

theorem refGtb_eq_decide (x o : ReferenceData) :
    refGtb x o = decide ((keyPair o).1 < (keyPair x).1 ∨
      ((keyPair o).1 = (keyPair x).1 ∧ (keyPair o).2 < (keyPair x).2)) := by
  unfold refGtb keyPair
  cases hx : x.is_definition <;> cases ho : o.is_definition <;> simp

theorem keyPair_inj {x o : ReferenceData} (h : keyPair x = keyPair o) :
    x = o := by
  unfold keyPair at h
  cases x with
  | mk xd xk =>
    cases o with
    | mk od ok =>
      simp only [Prod.mk.injEq] at h
      cases xd <;> cases od <;> simp_all

theorem refGtb_self (x : ReferenceData) : refGtb x x = false := by
  rw [refGtb_eq_decide]
  simp

theorem nongt_refMax {x b : ReferenceData} (h : refGtb x b = false)
    (y : ReferenceData) : refGtb x (refMax b y) = false := by
  unfold refMax
  split
  · rename_i hy
    rw [refGtb_eq_decide] at *
    simp only [decide_eq_true_eq, decide_eq_false_iff_not] at *
    omega
  · exact h

theorem refMax_nongt_left (b y : ReferenceData) :
    refGtb b (refMax b y) = false := by
  unfold refMax
  split
  · rename_i hy
    rw [refGtb_eq_decide] at *
    simp only [decide_eq_true_eq, decide_eq_false_iff_not] at *
    omega
  · exact refGtb_self b

theorem refMax_nongt_right (b y : ReferenceData) :
    refGtb y (refMax b y) = false := by
  unfold refMax
  split
  · exact refGtb_self y
  · rename_i hy
    simpa using hy

theorem nongt_refMaxFold {x b : ReferenceData} (h : refGtb x b = false)
    (l : List ReferenceData) : refGtb x (refMaxFold b l) = false := by
  induction l generalizing b with
  | nil => exact h
  | cons y rs ih =>
    unfold refMaxFold at *
    simp only [List.foldl_cons]
    exact ih (nongt_refMax h y)

theorem refMaxFold_mem (b : ReferenceData) (l : List ReferenceData) :
    refMaxFold b l ∈ b :: l := by
  induction l generalizing b with
  | nil => simp [refMaxFold]
  | cons y rs ih =>
    unfold refMaxFold at *
    simp only [List.foldl_cons]
    have h := ih (refMax b y)
    have hm : refMax b y = b ∨ refMax b y = y := by
      unfold refMax
      split
      · exact Or.inr rfl
      · exact Or.inl rfl
    rcases List.mem_cons.mp h with h' | h'
    · rcases hm with he | he <;> rw [h'.trans he] <;> simp
    · exact List.mem_cons_of_mem _ (List.mem_cons_of_mem _ h')

theorem refMaxFold_ub (b : ReferenceData) (l : List ReferenceData) :
    ∀ x ∈ b :: l, refGtb x (refMaxFold b l) = false := by
  induction l generalizing b with
  | nil =>
    intro x hx
    rcases List.mem_cons.mp hx with h | h
    · subst h
      exact refGtb_self x
    · cases h
  | cons y rs ih =>
    intro x hx
    unfold refMaxFold at *
    simp only [List.foldl_cons]
    rcases List.mem_cons.mp hx with h | h
    · subst h
      exact nongt_refMaxFold (refMax_nongt_left x y) rs
    · rcases List.mem_cons.mp h with h' | h'
      · subst h'
        exact nongt_refMaxFold (refMax_nongt_right b x) rs
      · exact ih (refMax b y) x (List.mem_cons_of_mem _ h')

theorem max_unique {l : List ReferenceData} {m₁ m₂ : ReferenceData}
    (h₁ : m₁ ∈ l) (h₂ : m₂ ∈ l)
    (hu₁ : ∀ x ∈ l, refGtb x m₁ = false)
    (hu₂ : ∀ x ∈ l, refGtb x m₂ = false) : m₁ = m₂ := by
  have ha := hu₂ m₁ h₁
  have hb := hu₁ m₂ h₂
  rw [refGtb_eq_decide] at ha hb
  simp only [decide_eq_false_iff_not] at ha hb
  refine keyPair_inj ?_
  rcases hp : keyPair m₁ with ⟨a1, a2⟩
  rcases hq : keyPair m₂ with ⟨b1, b2⟩
  rw [hp, hq] at ha hb
  simp only at ha hb
  have : a1 = b1 ∧ a2 = b2 := by omega
  simp [this.1, this.2]

/-- Folding `add_reference` over a list of values at one `(usr, loc)`
from an index whose reference map is exactly one entry at that site. -/
theorem foldAdd_from_entry (usr : String) (loc : LocationInFile)
    (l : List ReferenceData) :
    ∀ (idx : Index) (cur : ReferenceData),
      idx.references_by_usr = [(usr, [(loc, cur)])] →
      (l.foldl (fun i x => i.addReference usr loc x) idx).references_by_usr
        = [(usr, [(loc, refMaxFold cur l)])] := by
  induction l with
  | nil =>
    intro idx cur hidx
    simpa [refMaxFold] using hidx
  | cons x rs ih =>
    intro idx cur hidx
    simp only [List.foldl_cons]
    have hstep : (idx.addReference usr loc x).references_by_usr
        = [(usr, [(loc, refMax cur x)])] := by
      unfold Index.addReference
      rw [hidx]
      unfold refMax
      by_cases hg : refGtb x cur = true
      · simp [alistFind, alistSet, hg]
      · simp only [Bool.not_eq_true] at hg
        simp [alistFind, alistSet, hg, hidx]
    have := ih (idx.addReference usr loc x) (refMax cur x) hstep
    simpa [refMaxFold] using this

theorem addReference_first (cmd : CompileCommand) (usr : String)
    (loc : LocationInFile) (r : ReferenceData) :
    ((mkIndex cmd).addReference usr loc r).references_by_usr
      = [(usr, [(loc, r)])] := by
  unfold Index.addReference mkIndex
  split <;> simp_all [alistFind, alistSet]

theorem mem_natSet_fold (l : List Nat) :
    ∀ (acc : List Nat) (x : Nat),
      (x ∈ l.foldl (fun a i => if a.contains i then a else a ++ [i]) acc
        ↔ (x ∈ acc ∨ x ∈ l)) := by
  induction l with
  | nil => simp
  | cons b bs ih =>
    intro acc x
    simp only [List.foldl_cons]
    rw [ih]
    by_cases hb : acc.contains b
    · simp only [hb, if_true, ite_true]
      have hbm : b ∈ acc := by simpa using hb
      constructor
      · rintro (h | h)
        · exact Or.inl h
        · exact Or.inr (List.mem_cons_of_mem _ h)
      · rintro (h | h)
        · exact Or.inl h
        · rcases List.mem_cons.mp h with h' | h'
          · subst h'
            exact Or.inl hbm
          · exact Or.inr h'
    · simp only [hb, if_false, List.mem_append, List.mem_singleton,
        Bool.false_eq_true, ite_false]
      constructor
      · rintro ((h | h) | h)
        · exact Or.inl h
        · subst h
          exact Or.inr (List.mem_cons_self _ _)
        · exact Or.inr (List.mem_cons_of_mem _ h)
      · rintro (h | h)
        · exact Or.inl (Or.inl h)
        · rcases List.mem_cons.mp h with h' | h'
          · exact Or.inl (Or.inr h')
          · exact Or.inr h'

theorem mem_natSet (l : List Nat) (x : Nat) : x ∈ natSet l ↔ x ∈ l := by
  unfold natSet
  rw [mem_natSet_fold]
  simp

/-- After the fixed point of `remove_orphaned_includes`, every
`is_included` file is the target of some `includes` row. -/
theorem removeOrphans_postcondition (fk : Bool) (db : DBState) :
    ∀ f ∈ (removeOrphans fk db).files, f.is_included = true →
      ∃ e ∈ (removeOrphans fk db).includes, e.included_file_id = f.id := by
  induction db using removeOrphans.induct fk with
  | case1 db orphans horph =>
    rw [removeOrphans.eq_def]
    rw [dif_pos horph]
    intro f hf hinc
    have hid : f.id ∈ natSet
        ((db.files.filter (fun g => g.is_included)).map (·.id)) := by
      rw [mem_natSet]
      exact List.mem_map_of_mem _ (List.mem_filter.mpr ⟨hf, by simp [hinc]⟩)
    have := List.filter_eq_nil_iff.mp horph _ hid
    simp only [Bool.not_eq_true, Bool.not_eq_false] at this
    have hmem : f.id ∈ natSet (db.includes.map (·.included_file_id)) := by
      simpa using this
    rw [mem_natSet] at hmem
    rcases List.mem_map.mp hmem with ⟨e, he, heq⟩
    exact ⟨e, he, heq⟩
  | case2 db orphans horph ih =>
    rw [removeOrphans.eq_def]
    rw [dif_neg horph]
    exact ih

/-- A store with no orphans is a fixed point of
`remove_orphaned_includes`. -/
theorem removeOrphans_no_orphans {db : DBState} (fk : Bool)
    (h : orphansOf db = []) : removeOrphans fk db = db := by
  rw [removeOrphans.eq_def]
  simp [h]

/-- When every work set is empty, the update loop consumes nothing. -/
theorem updateLoop_done (parse : CompileCommand → ParseResult)
    (procCwd : String) (cdb : CDB) (fm : FMState) (db : DBState)
    (h1 : fm.sources_to_add = []) (h2 : fm.sources_to_update = [])
    (h3 : fm.headers_to_update = []) (h4 : fm.inlines_to_update = []) :
    updateLoop parse procCwd cdb fm db = .ok (fm, db) := by
  have hn : fmNext cdb db fm = (none, fm) := by
    unfold fmNext
    rw [h1, h2, h3]
    cases fm
    simp_all [fmNextInlineGo]
  rw [updateLoop.eq_def]
  split <;> rename_i heq <;> rw [hn] at heq <;>
    first
      | (cases heq; rfl)
      | simp at heq

/-- Unfolding one productive step of the update loop. -/
theorem updateLoop_step (parse : CompileCommand → ParseResult)
    (procCwd : String) (cdb : CDB) (fm fm' : FMState) (db : DBState)
    (cmd : CompileCommand)
    (hn : fmNext cdb db fm = (some (some cmd), fm')) :
    updateLoop parse procCwd cdb fm db =
      updateLoop parse procCwd cdb
        (processCmd parse procCwd cmd fm' db).1
        (processCmd parse procCwd cmd fm' db).2 := by
  rw [updateLoop.eq_def]
  split <;> rename_i heq <;> rw [hn] at heq <;>
    first
      | (cases heq; rfl)
      | simp at heq

/-- The loop errors out when `next` hands it a `None` command. -/
theorem updateLoop_none_command (parse : CompileCommand → ParseResult)
    (procCwd : String) (cdb : CDB) (fm : FMState) (db : DBState)
    (hn : (fmNext cdb db fm).1 = some none) :
    updateLoop parse procCwd cdb fm db
      = .error .attributeErrorNoneCommand := by
  rw [updateLoop.eq_def]
  split <;> rename_i heq <;> rw [heq] at hn <;> simp_all

/-! ### Lemmas about a fresh, unchanged store (for C7) -/

theorem mem_insertNew (a p : String) (l : List String) :
    p ∈ insertNew a l ↔ p = a ∨ p ∈ l := by
  unfold insertNew
  split
  · rename_i hc
    have : a ∈ l := by simpa using hc
    constructor
    · exact Or.inr
    · rintro (h | h)
      · rwa [h]
      · exact h
  · simp
    tauto

theorem mem_queryExistingFiles (db : DBState) (f : FileSnap) :
    f ∈ queryExistingFiles db ↔
      ∃ g ∈ db.files, f = ⟨g.path, g.last_update, g.is_included⟩ := by
  unfold queryExistingFiles
  rw [mem_sortListBy]
  rw [List.mem_map]
  constructor
  · rintro ⟨g, hg, he⟩
    exact ⟨g, hg, he.symm⟩
  · rintro ⟨g, hg, he⟩
    exact ⟨g, hg, he.symm⟩

theorem initScan_fold_spec (fs : FS) (files : List FileSnap)
    (hex : ∀ f ∈ files, fs f.path ≠ none) :
    ∀ acc : List String × List String,
      (files.foldl
        (fun acc f =>
          if fs f.path = none then (insertNew f.path acc.1, acc.2)
          else if !f.is_included then (acc.1, insertNew f.path acc.2)
          else acc) acc).1 = acc.1 ∧
      (∀ p, p ∈ (files.foldl
        (fun acc f =>
          if fs f.path = none then (insertNew f.path acc.1, acc.2)
          else if !f.is_included then (acc.1, insertNew f.path acc.2)
          else acc) acc).2 ↔
        p ∈ acc.2 ∨ ∃ f ∈ files, f.is_included = false ∧ f.path = p) := by
  induction files with
  | nil =>
    intro acc
    simp
  | cons f rest ih =>
    intro acc
    have hex' : ∀ g ∈ rest, fs g.path ≠ none :=
      fun g hg => hex g (List.mem_cons_of_mem _ hg)
    have hf : ¬(fs f.path = none) := hex f (List.mem_cons_self _ _)
    simp only [List.foldl_cons, if_neg hf]
    by_cases hincf : f.is_included
    · rw [if_neg (by simp [hincf])]
      obtain ⟨h1, h2⟩ := ih hex' acc
      refine ⟨h1, ?_⟩
      intro p
      rw [h2 p]
      constructor
      · rintro (h | ⟨g, hg, hgi, hgp⟩)
        · exact Or.inl h
        · exact Or.inr ⟨g, List.mem_cons_of_mem _ hg, hgi, hgp⟩
      · rintro (h | ⟨g, hg, hgi, hgp⟩)
        · exact Or.inl h
        · rcases List.mem_cons.mp hg with hg' | hg'
          · subst hg'
            rw [hincf] at hgi
            cases hgi
          · exact Or.inr ⟨g, hg', hgi, hgp⟩
    · rw [if_pos (by simp [hincf])]
      obtain ⟨h1, h2⟩ := ih hex' (acc.1, insertNew f.path acc.2)
      refine ⟨h1, ?_⟩
      intro p
      rw [h2 p]
      simp only [mem_insertNew]
      constructor
      · rintro ((h | h) | ⟨g, hg, hgi, hgp⟩)
        · exact Or.inr ⟨f, List.mem_cons_self _ _, by simpa using hincf, h.symm⟩
        · exact Or.inl h
        · exact Or.inr ⟨g, List.mem_cons_of_mem _ hg, hgi, hgp⟩
      · rintro (h | ⟨g, hg, hgi, hgp⟩)
        · exact Or.inl (Or.inr h)
        · rcases List.mem_cons.mp hg with hg' | hg'
          · subst hg'
            exact Or.inl (Or.inl hgp.symm)
          · exact Or.inr ⟨g, hg', hgi, hgp⟩

theorem initScan_rem (fs : FS) (files : List FileSnap)
    (hex : ∀ f ∈ files, fs f.path ≠ none) :
    (initScan fs files).1 = [] := by
  unfold initScan
  exact (initScan_fold_spec fs files hex ([], [])).1

theorem initScan_src_iff (fs : FS) (files : List FileSnap)
    (hex : ∀ f ∈ files, fs f.path ≠ none) (p : String) :
    p ∈ (initScan fs files).2 ↔
      ∃ f ∈ files, f.is_included = false ∧ f.path = p := by
  unfold initScan
  rw [(initScan_fold_spec fs files hex ([], [])).2 p]
  simp

theorem initWork_fold_fresh (globMatch : String → String → Bool) (fs : FS)
    (inlinePats : List String) (files : List FileSnap)
    (h : ∀ f ∈ files, needsUpdate fs f = false) :
    ∀ acc : WorkAcc,
      (files.foldl
        (fun acc f =>
          if ([] : List String).contains f.path then acc
          else if needsUpdate fs f then
            if f.is_included then
              if inlinePats.any (fun pat => globMatch f.path pat) then
                { acc with inlines_to_update := insertNew f.path acc.inlines_to_update }
              else
                { acc with headers_to_update := insertNew f.path acc.headers_to_update }
            else
              { acc with sources_to_update := insertNew f.path acc.sources_to_update }
          else { acc with visited := insertNew f.path acc.visited }) acc)
        = ⟨files.foldl (fun v f => insertNew f.path v) acc.visited,
           acc.sources_to_update, acc.headers_to_update,
           acc.inlines_to_update⟩ := by
  induction files with
  | nil =>
    intro acc
    rfl
  | cons f rest ih =>
    intro acc
    have h' : ∀ g ∈ rest, needsUpdate fs g = false :=
      fun g hg => h g (List.mem_cons_of_mem _ hg)
    have hf : needsUpdate fs f = false := h f (List.mem_cons_self _ _)
    simp only [List.foldl_cons, List.contains_nil, Bool.false_eq_true,
      if_false, hf, ite_false]
    exact ih h' _

theorem mem_foldl_insertNew (files : List FileSnap) :
    ∀ (v : List String) (p : String),
      p ∈ files.foldl (fun v f => insertNew f.path v) v ↔
        p ∈ v ∨ ∃ f ∈ files, f.path = p := by
  induction files with
  | nil => simp
  | cons f rest ih =>
    intro v p
    simp only [List.foldl_cons]
    rw [ih]
    rw [mem_insertNew]
    constructor
    · rintro ((h | h) | ⟨g, hg, hgp⟩)
      · exact Or.inr ⟨f, List.mem_cons_self _ _, h.symm⟩
      · exact Or.inl h
      · exact Or.inr ⟨g, List.mem_cons_of_mem _ hg, hgp⟩
    · rintro (h | ⟨g, hg, hgp⟩)
      · exact Or.inl (Or.inr h)
      · rcases List.mem_cons.mp hg with hg' | hg'
        · subst hg'
          exact Or.inl (Or.inl hgp.symm)
        · exact Or.inr ⟨g, hg', hgp⟩

theorem orphansOf_nil_of_no_orphans (db : DBState)
    (h : ∀ f ∈ db.files, f.is_included = true →
      ∃ e ∈ db.includes, e.included_file_id = f.id) :
    orphansOf db = [] := by
  unfold orphansOf
  rw [List.filter_eq_nil_iff]
  intro i hi
  rw [mem_natSet] at hi
  rcases List.mem_map.mp hi with ⟨f, hf, hfi⟩
  have hinc := (List.mem_filter.mp hf).2
  obtain ⟨e, he, hei⟩ := h f (List.mem_filter.mp hf).1 (by simpa using hinc)
  simp only [Bool.not_eq_true, Bool.not_eq_false]
  have : i ∈ natSet (db.includes.map (fun x => x.included_file_id)) := by
    rw [mem_natSet]
    exact List.mem_map.mpr ⟨e, he, by rw [hei, hfi]⟩
  simpa using this

/-- With every stored file fresh (`mtime < last_update`) and the stored
sources coinciding with the compilation-database paths, the file manager
computes empty work sets, marks every stored file visited, and performs
no store writes. -/
theorem initFM_fresh (globMatch : String → String → Bool) (fk : Bool)
    (now : Int) (root : String) (fs : FS) (cdb : CDB)
    (inlinePats : List String) (db : DBState)
    (hfresh : ∀ g ∈ db.files, ∃ m, fs g.path = some m ∧ m < g.last_update)
    (hsrc : ∀ g ∈ db.files, g.is_included = false → g.path ∈ cdbPaths cdb)
    (hcdb : ∀ p ∈ cdbPaths cdb, ∃ g ∈ db.files,
      g.is_included = false ∧ g.path = p) :
    (initFM globMatch fk now root fs cdb inlinePats db).2 = db ∧
    (initFM globMatch fk now root fs cdb inlinePats db).1.sources_to_add = [] ∧
    (initFM globMatch fk now root fs cdb inlinePats db).1.sources_to_update = [] ∧
    (initFM globMatch fk now root fs cdb inlinePats db).1.headers_to_update = [] ∧
    (initFM globMatch fk now root fs cdb inlinePats db).1.inlines_to_update = [] ∧
    ∀ g ∈ db.files,
      g.path ∈ (initFM globMatch fk now root fs cdb inlinePats db).1.visited := by
  have hex : ∀ f ∈ queryExistingFiles db, fs f.path ≠ none := by
    intro f hf
    rcases (mem_queryExistingFiles db f).mp hf with ⟨g, hg, rfl⟩
    obtain ⟨m, hm, _⟩ := hfresh g hg
    simp [hm]
  have hfreshS : ∀ f ∈ queryExistingFiles db, needsUpdate fs f = false := by
    intro f hf
    rcases (mem_queryExistingFiles db f).mp hf with ⟨g, hg, rfl⟩
    obtain ⟨m, hm, hlt⟩ := hfresh g hg
    unfold needsUpdate
    dsimp only
    rw [hm]
    simp
    omega
  have hptr : (initScan fs (queryExistingFiles db)).2.filter
      (fun p => !(cdbPaths cdb).contains p) = [] := by
    rw [List.filter_eq_nil_iff]
    intro p hp
    rw [initScan_src_iff fs _ hex] at hp
    obtain ⟨f, hf, hfi, hfp⟩ := hp
    subst hfp
    rcases (mem_queryExistingFiles db f).mp hf with ⟨g, hg, rfl⟩
    have := hsrc g hg (by simpa using hfi)
    simpa using this
  have hadd : (cdbPaths cdb).filter
      (fun p => !(initScan fs (queryExistingFiles db)).2.contains p) = [] := by
    rw [List.filter_eq_nil_iff]
    intro p hp
    obtain ⟨g, hg, hgi, hgp⟩ := hcdb p hp
    have hfmem : (⟨g.path, g.last_update, g.is_included⟩ : FileSnap)
        ∈ queryExistingFiles db :=
      (mem_queryExistingFiles db _).mpr ⟨g, hg, rfl⟩
    have hmem : p ∈ (initScan fs (queryExistingFiles db)).2 := by
      rw [initScan_src_iff fs _ hex]
      exact ⟨⟨g.path, g.last_update, g.is_included⟩, hfmem,
        by simpa using hgi, by simpa using hgp⟩
    simpa using hmem
  have hscanrem := initScan_rem fs _ hex
  have hwork : initWork globMatch fs inlinePats [] (queryExistingFiles db)
      = ⟨(queryExistingFiles db).foldl (fun v f => insertNew f.path v) [],
         [], [], []⟩ := by
    unfold initWork
    exact initWork_fold_fresh globMatch fs inlinePats
      (queryExistingFiles db) hfreshS ⟨[], [], [], []⟩
  unfold initFM
  dsimp only
  rw [hptr, hadd]
  have hrf : removeFilesDb fk db [] = (db, []) := rfl
  rw [hrf]
  dsimp only
  rw [hscanrem]
  simp only [List.foldl_nil]
  rw [hwork]
  refine ⟨trivial, trivial, rfl, rfl, rfl, ?_⟩
  intro g hg
  dsimp only
  rw [mem_foldl_insertNew]
  exact Or.inr ⟨⟨g.path, g.last_update, g.is_included⟩,
    (mem_queryExistingFiles db _).mpr ⟨g, hg, rfl⟩, rfl⟩

/-! ## Claim theorems -/

/-- A small store for the C10 witness: one file, its compile arg, one
symbol and one ref. -/
def c10WitnessDb : DBState :=
  ⟨[⟨1, "/proj/x.cpp", "/proj", 10, false⟩], [⟨1, 1, "-DF"⟩], [],
   [⟨1, "c:@F@bar"⟩], [⟨1, 1, 2, 3, 8, true⟩], 2, 2, 2⟩

/-- C5: for every cwd, argv, extra and banned, `_make_compile_args`
processes argv followed by extra in order, skips elements equal to a
banned member, keeps `-nostdinc` and `-D`/`-W`/`-std=` arguments
verbatim, keeps `-x` (setting `has_x`) and `-Xpreprocessor` together
with their following token, keeps the two-part and prefixed path
arguments with their path normalized against cwd (recording `-include`
paths in the forced-include set), and drops everything else — stated as
the equality of the source embedding with the function written from the
specification's table. -/
theorem C5_make_compile_args_follows_spec_table (cwd : String)
    (args extra banned : List String) :
    makeCompileArgs cwd args extra banned =
      specMakeArgs cwd args extra banned :=
  makeArgsGo_eq_specGo cwd banned (args ++ extra) [] [] false

/-- C4: a sequence of `add_reference` calls on one freshly constructed
`_Index`, all at the same USR and the same (line, column), leaves
exactly one stored entry whose value is the maximum of the supplied
`(is_definition, kind)` tuples in the Python tuple order: the stored map
is the singleton `[(usr, [(loc, m)])]` where `m` is the fold of the
pairwise merge in any permuted call order, `m` is one of the supplied
values, and no supplied value exceeds it. -/
theorem C4_add_reference_keeps_max (cmd : CompileCommand) (usr : String)
    (loc : LocationInFile) (r : ReferenceData) (rs l' : List ReferenceData)
    (hperm : (r :: rs).Perm l') :
    (l'.foldl (fun i x => i.addReference usr loc x)
        (mkIndex cmd)).references_by_usr
      = [(usr, [(loc, refMaxFold r rs)])] ∧
    refMaxFold r rs ∈ r :: rs ∧
    (∀ x ∈ r :: rs, refGtb x (refMaxFold r rs) = false) := by
  match l', hperm with
  | [], hperm => exact absurd hperm.symm (by simp)
  | r' :: rs', hperm =>
    have hfold : ((r' :: rs').foldl (fun i x => i.addReference usr loc x)
        (mkIndex cmd)).references_by_usr
        = [(usr, [(loc, refMaxFold r' rs')])] := by
      simp only [List.foldl_cons]
      exact foldAdd_from_entry usr loc rs' _ r'
        (addReference_first cmd usr loc r')
    have hmem' : refMaxFold r' rs' ∈ r :: rs :=
      hperm.symm.mem_iff.mp (refMaxFold_mem r' rs')
    have hub' : ∀ x ∈ r :: rs, refGtb x (refMaxFold r' rs') = false :=
      fun x hx => refMaxFold_ub r' rs' x (hperm.mem_iff.mp hx)
    have heq : refMaxFold r' rs' = refMaxFold r rs :=
      max_unique hmem' (refMaxFold_mem r rs) hub' (refMaxFold_ub r rs)
    refine ⟨?_, refMaxFold_mem r rs, refMaxFold_ub r rs⟩
    rw [hfold, heq]

/-- Witness for C4: a class declaration `(is_definition := false, kind :=
4)` and a definition `(true, 4)` of the same USR at the same `(10, 7)`
site, merged in either order, leave the single entry `(true, 4)`. -/
theorem C4_add_reference_keeps_max_witness :
    (([⟨true, 4⟩, ⟨false, 4⟩] : List ReferenceData).foldl
        (fun i x => i.addReference "c:@S@Foo" ⟨10, 7⟩ x)
        (mkIndex ⟨"/proj/f.cpp", ⟨[], .pathSet [], false⟩, "/proj", false⟩)).references_by_usr
      = [("c:@S@Foo", [(⟨10, 7⟩, refMaxFold ⟨false, 4⟩ [⟨true, 4⟩])])] ∧
    refMaxFold ⟨false, 4⟩ [⟨true, 4⟩]
      ∈ ([⟨false, 4⟩, ⟨true, 4⟩] : List ReferenceData) ∧
    (∀ x ∈ ([⟨false, 4⟩, ⟨true, 4⟩] : List ReferenceData),
      refGtb x (refMaxFold ⟨false, 4⟩ [⟨true, 4⟩]) = false) :=
  C4_add_reference_keeps_max
    ⟨"/proj/f.cpp", ⟨[], .pathSet [], false⟩, "/proj", false⟩
    "c:@S@Foo" ⟨10, 7⟩ ⟨false, 4⟩ [⟨true, 4⟩] [⟨true, 4⟩, ⟨false, 4⟩]
    (by decide)

/-- C9 (failing part): `_Index.__init__` does upgrade the argument vector
with `-x c++` exactly when the args have no `-x` and the filename has a
C++ extension, but the upgraded `_CompileArgs` is built as
`_CompileArgs(all_args, self.cwd, True)` — its `includes` field receives
the working-directory string `"/proj"`, not the command's forced-include
set, so `child_args` is not "the same `_CompileArgs` value with the
argument vector prefixed" as the claim states. -/
theorem C9_child_args_includes_field_bug :
    (mkIndex ⟨"/proj/a.cpp", ⟨["-I/proj/inc"], .pathSet ["/proj/pre.h"], false⟩,
        "/proj", false⟩).child_args
      = ⟨["-x", "c++", "-I/proj/inc"], .strVal "/proj", true⟩ ∧
    (mkIndex ⟨"/proj/a.cpp", ⟨["-I/proj/inc"], .pathSet ["/proj/pre.h"], false⟩,
        "/proj", false⟩).child_args.includes
      ≠ IncludesVal.pathSet ["/proj/pre.h"] := by
  constructor
  · rfl
  · decide

/-- C10: a USR with no `symbols` row yields `[]` from
`query_definitions`, `query_references` and `query_subtypes`, and a path
with no `files` row yields `[]` from `query_including_files` and `None`
from `query_compile_args`. -/
theorem C10_queries_on_missing_keys (db : DBState) (usr path : String)
    (hu : ∀ s ∈ db.symbols, s.usr ≠ usr)
    (hp : ∀ f ∈ db.files, f.path ≠ path) :
    queryDefinitions db usr = [] ∧ queryReferences db usr = [] ∧
    querySubtypes db usr = [] ∧ queryIncludingFiles db path = [] ∧
    queryCompileArgs db path = none := by
  have hs : firstSymbolId db usr = none := by
    unfold firstSymbolId
    rw [List.find?_eq_none.mpr]
    · rfl
    · intro s hsm
      simpa using hu s hsm
  have hf : findFileByPath db path = none := by
    unfold findFileByPath
    rw [List.find?_eq_none.mpr]
    intro f hfm
    simpa using hp f hfm
  refine ⟨?_, ?_, ?_, ?_, ?_⟩
  · unfold queryDefinitions
    rw [hs]
  · unfold queryReferences
    rw [hs]
  · unfold querySubtypes
    rw [hs]
  · unfold queryIncludingFiles
    rw [hf]
  · unfold queryCompileArgs
    rw [hf]

/-- Witness for C10 on a store holding one file, one symbol and one ref:
the queried USR and path are absent. -/
theorem C10_queries_on_missing_keys_witness :
    queryDefinitions c10WitnessDb "c:@F@foo" = [] ∧
    queryReferences c10WitnessDb "c:@F@foo" = [] ∧
    querySubtypes c10WitnessDb "c:@F@foo" = [] ∧
    queryIncludingFiles c10WitnessDb "/nope.h" = [] ∧
    queryCompileArgs c10WitnessDb "/nope.h" = none :=
  C10_queries_on_missing_keys c10WitnessDb "c:@F@foo" "/nope.h"
    (by decide) (by decide)

/-- Inputs for C2: an indexer for the root source `/proj/a.cpp` of a
fresh file manager, and a cursor located in the non-project file
`/usr/h.h` whose only child sits in the admissible project file
`/proj/b.h` and references `c:@S@Foo`. -/
def c2Fm : FMState := ⟨"/proj/", 100, [], [], [], [], [], []⟩

def c2Cmd : CompileCommand := ⟨"/proj/a.cpp", ⟨[], .pathSet [], false⟩, "/proj", false⟩

def c2Ist : IState := mkIndexer "/proj" c2Fm c2Cmd

def c2Cursor : Cursor := .mk (some "/usr/h.h") 1 1 none false 0
  [.mk (some "/proj/b.h") 5 5 (some "c:@S@Foo") true 2 []]

/-- C2 fails on the code: `_find_references` recurses into a cursor's
children only inside the `if idx:` branch, so a cursor in a file that
`should_index` rejects prunes its whole subtree.  Here `/usr/h.h` is
rejected (outside the project root), and after the walk `idx_by_path`
still holds only the root index with no references: the descendant
cursor in the admissible `/proj/b.h` never gets its reference recorded,
contradicting the claim. -/
theorem C2_rejected_file_prunes_subtree_counterexample :
    (shouldIndex c2Ist.fm "/usr/h.h").1 = false ∧
    (findRefs c2Ist c2Cursor).idx_by_path
      = [("/proj/a.cpp", mkIndex c2Cmd)] ∧
    alistFind "/proj/b.h" (findRefs c2Ist c2Cursor).idx_by_path = none ∧
    (mkIndex c2Cmd).references_by_usr = [] :=
  ⟨rfl, rfl, rfl, rfl⟩

/-- C2 amended: in the AST walk, for every cursor whose location lies in
a file rejected by `should_index` (no index exists or is created for
it), no references are accumulated for that cursor **and the walk does
not recurse into that cursor's children** — the subtree is pruned, so
descendants in admissible files get no references from it; the only
state change is `should_index`'s visited-set bookkeeping. -/
theorem C2_rejected_file_prunes_subtree (ist : IState) (fname : String)
    (line column : Nat) (refUsr : Option String) (isDef : Bool)
    (kind : Nat) (children : List Cursor)
    (hnoidx : alistFind (makeAbsolutePath ist.procCwd fname)
      ist.idx_by_path = none)
    (hrej : (shouldIndex ist.fm
      (makeAbsolutePath ist.procCwd fname)).1 = false) :
    findRefs ist (.mk (some fname) line column refUsr isDef kind children)
      = { ist with fm := (shouldIndex ist.fm
          (makeAbsolutePath ist.procCwd fname)).2 } := by
  rw [findRefs]
  unfold getIndex
  rw [hnoidx]
  dsimp only
  rw [if_neg (by simp [hrej])]

/-- Witness for C2 amended, at the counterexample's input. -/
theorem C2_rejected_file_prunes_subtree_witness :
    findRefs c2Ist c2Cursor
      = { c2Ist with fm := (shouldIndex c2Ist.fm
          (makeAbsolutePath c2Ist.procCwd "/usr/h.h")).2 } :=
  C2_rejected_file_prunes_subtree c2Ist "/usr/h.h" 1 1 none false 0
    [.mk (some "/proj/b.h") 5 5 (some "c:@S@Foo") true 2 []]
    (by rfl) (by rfl)

/-- A parse result with no cursors and no include records (for update
runs whose loop body never executes or does nothing). -/
def trivialParse : CompileCommand → ParseResult :=
  fun _ => ⟨.mk none 0 0 none false 0 [], []⟩

def emptyDb : DBState := ⟨[], [], [], [], [], 1, 1, 1⟩

/-- C6: `remove_orphaned_includes` terminates (it is a total function
here, by the strictly decreasing file count), and when it returns, every
remaining `files` row with `is_included = true` is the target of at
least one `includes` row; consequently every store a successful `update`
commits satisfies that property, since `update` returns the result of
`remove_orphaned_includes` unchanged. -/
theorem C6_no_orphan_includes_committed :
    (∀ (fk : Bool) (db : DBState), ∀ f ∈ (removeOrphans fk db).files,
        f.is_included = true →
        ∃ e ∈ (removeOrphans fk db).includes, e.included_file_id = f.id) ∧
    (∀ (globMatch : String → String → Bool)
        (parse : CompileCommand → ParseResult) (procCwd : String)
        (now : Int) (root : String) (fs : FS) (cdb : CDB)
        (inlinePats : List String) (db db' : DBState),
        updateModel globMatch parse procCwd now root fs cdb inlinePats db
          = .ok db' →
        ∀ f ∈ db'.files, f.is_included = true →
          ∃ e ∈ db'.includes, e.included_file_id = f.id) := by
  refine ⟨removeOrphans_postcondition, ?_⟩
  intro gm parse pc now root fs cdb pats db db' h
  unfold updateModel at h
  dsimp only at h
  split at h
  · exact absurd h (by simp)
  · cases h
    exact removeOrphans_postcondition _ _

/-- Store for the C6 witness: a source including a header, no orphans. -/
def c6Db : DBState :=
  ⟨[⟨1, "/proj/a.cpp", "/proj", 100, false⟩,
    ⟨2, "/proj/a.h", "/proj", 100, true⟩], [], [⟨1, 2, 3, 4⟩], [], [],
   3, 1, 1⟩

/-- Witness for C6: the header row survives the orphan pass with its
incoming edge, and an empty update run commits an orphan-free store. -/
theorem C6_no_orphan_includes_committed_witness :
    (∃ e ∈ (removeOrphans false c6Db).includes, e.included_file_id = 2) ∧
    (∀ f ∈ emptyDb.files, f.is_included = true →
      ∃ e ∈ emptyDb.includes, e.included_file_id = f.id) := by
  constructor
  · refine C6_no_orphan_includes_committed.1 false c6Db
      ⟨2, "/proj/a.h", "/proj", 100, true⟩ ?_ rfl
    rw [removeOrphans_no_orphans false (by decide)]
    decide
  · refine C6_no_orphan_includes_committed.2 (fun _ _ => false) trivialParse
      "/" 0 "/proj" (fun _ => none) [] [] emptyDb emptyDb ?_
    unfold updateModel
    dsimp only
    have hini : initFM (fun _ _ => false) connectToDbForeignKeys 0 "/proj"
        (fun _ => none) [] [] emptyDb
        = (⟨"/proj/", 0, [], [], [], [], [], []⟩, emptyDb) := rfl
    rw [hini]
    dsimp only
    rw [updateLoop_done trivialParse "/" []
      ⟨"/proj/", 0, [], [], [], [], [], []⟩ emptyDb rfl rfl rfl rfl]
    dsimp only
    rw [removeOrphans_no_orphans connectToDbForeignKeys (by decide)]

/-- Store and filesystem for C1: the compilation database no longer
lists `/proj/a.cpp`; the store still holds it (id 1, with a compile arg,
a ref and an includes edge to `/proj/a.h`, id 2). -/
def c1Db : DBState :=
  ⟨[⟨1, "/proj/a.cpp", "/proj", 100, false⟩,
    ⟨2, "/proj/a.h", "/proj", 100, true⟩],
   [⟨1, 1, "-DF"⟩], [⟨1, 2, 3, 4⟩], [⟨1, "c:@F@m"⟩],
   [⟨1, 1, 5, 6, 8, true⟩], 3, 2, 2⟩

def c1Fs : FS := fun p =>
  if p = "/proj/a.cpp" then some 50
  else if p = "/proj/a.h" then some 50 else none

/-- The store the modelled update leaves behind: the `files` row of
`/proj/a.cpp` is gone, but its compile_args row, its refs row and its
outbound includes edge all survive, dangling. -/
def c1DbAfter : DBState :=
  ⟨[⟨2, "/proj/a.h", "/proj", 100, true⟩],
   [⟨1, 1, "-DF"⟩], [⟨1, 2, 3, 4⟩], [⟨1, "c:@F@m"⟩],
   [⟨1, 1, 5, 6, 8, true⟩], 3, 2, 2⟩

/-- C1 fails on the code: `PRAGMA foreign_keys=ON` is per-connection and
only `_init_db` ever issues it, so the connection `update` obtains from
`_connect_to_db` does not enforce foreign keys.  Deleting the removed
source `/proj/a.cpp` in `_remove_files` therefore cascades nothing: the
update succeeds and commits a store whose `includes` row names a
non-existent `files` row as `including_file_id` (and whose compile_args
and refs rows dangle likewise), contradicting the claimed invariant. -/
theorem C1_foreign_keys_not_enforced_on_update_connection :
    connectToDbForeignKeys = false ∧
    updateModel (fun _ _ => false) trivialParse "/proj" 200 "/proj" c1Fs
      [] [] c1Db = .ok c1DbAfter ∧
    (∃ e ∈ c1DbAfter.includes,
      ∀ f ∈ c1DbAfter.files, f.id ≠ e.including_file_id) ∧
    (∃ a ∈ c1DbAfter.compile_args,
      ∀ f ∈ c1DbAfter.files, f.id ≠ a.file_id) ∧
    (∃ r ∈ c1DbAfter.refs,
      ∀ f ∈ c1DbAfter.files, f.id ≠ r.file_id) := by
  refine ⟨rfl, ?_, by decide, by decide, by decide⟩
  unfold updateModel
  dsimp only
  have hini : initFM (fun _ _ => false) connectToDbForeignKeys 200 "/proj"
      c1Fs [] [] c1Db
      = (⟨"/proj/", 200, ["/proj/a.h"], [], [], [], [], []⟩, c1DbAfter) := by
    decide
  rw [hini]
  dsimp only
  rw [updateLoop_done trivialParse "/proj" []
    ⟨"/proj/", 200, ["/proj/a.h"], [], [], [], [], []⟩ c1DbAfter rfl rfl rfl rfl]
  dsimp only
  rw [removeOrphans_no_orphans connectToDbForeignKeys (by decide)]

/-- Inputs for C3: an empty store, and a compilation database that lists
`/proj/a.cpp` but yields no compile command for it. -/
def c3Cdb : CDB := [("/proj/a.cpp", none)]

def c3Fs : FS := fun p => if p = "/proj/a.cpp" then some 50 else none

/-- C3 fails on the code: for a source in `sources_to_add` whose compile
command is missing, `next` returns `None` (no skip, no fallback), and
the loop body of `update` immediately evaluates `cmd.filename` on it,
raising `AttributeError` — the run fails instead of skipping the source
and continuing. -/
theorem C3_missing_compile_command_aborts_update :
    getCompileCommand c3Cdb "/proj/a.cpp" = none ∧
    (initFM (fun _ _ => false) connectToDbForeignKeys 200 "/proj" c3Fs
      c3Cdb [] emptyDb).1.sources_to_add = ["/proj/a.cpp"] ∧
    updateModel (fun _ _ => false) trivialParse "/proj" 200 "/proj" c3Fs
      c3Cdb [] emptyDb = .error .attributeErrorNoneCommand := by
  refine ⟨rfl, rfl, ?_⟩
  unfold updateModel
  dsimp only
  have hini : initFM (fun _ _ => false) connectToDbForeignKeys 200 "/proj"
      c3Fs c3Cdb [] emptyDb
      = (⟨"/proj/", 200, [], ["/proj/a.cpp"], [], [], [], []⟩, emptyDb) := by
    decide
  rw [hini]
  dsimp only
  rw [updateLoop_none_command trivialParse "/proj" c3Cdb
    ⟨"/proj/", 200, [], ["/proj/a.cpp"], [], [], [], []⟩ emptyDb rfl]

/-! ### Include-attribution lemmas (for C8) -/

theorem alistFind_set_self {κ α : Type} [DecidableEq κ] (k : κ) (v : α)
    (l : List (κ × α)) : alistFind k (alistSet k v l) = some v := by
  induction l with
  | nil => simp [alistFind, alistSet]
  | cons kv rest ih =>
    unfold alistSet
    split
    · simp [alistFind]
    · rename_i hne
      unfold alistFind
      rw [if_neg hne]
      exact ih

theorem alistFind_set_other {κ α : Type} [DecidableEq κ] {k k' : κ}
    (v : α) (l : List (κ × α)) (h : k' ≠ k) :
    alistFind k' (alistSet k v l) = alistFind k' l := by
  induction l with
  | nil =>
    simp only [alistSet, alistFind]
    rw [if_neg (fun he => h he.symm)]
  | cons kv rest ih =>
    rcases kv with ⟨k1, v1⟩
    unfold alistSet
    split
    · rename_i heq
      unfold alistFind
      rw [if_neg (fun he => h he.symm), if_neg (fun he => h (he.symm.trans heq))]
    · unfold alistFind
      split
      · rfl
      · exact ih

theorem mem_insertIncl (e i : FileInclusion) (l : List FileInclusion) :
    e ∈ insertIncl i l ↔ e = i ∨ e ∈ l := by
  unfold insertIncl
  split
  · rename_i hc
    have : i ∈ l := by simpa using hc
    constructor
    · exact Or.inr
    · rintro (h | h)
      · rwa [h]
      · exact h
  · simp
    tauto

theorem setIdxInclude_find_self (ist : IState) (key : String)
    (inc : FileInclusion) (idx0 : Index)
    (h : alistFind key ist.idx_by_path = some idx0) :
    alistFind key (setIdxInclude ist key inc).idx_by_path
      = some (idx0.addInclude inc) := by
  unfold setIdxInclude
  rw [h]
  exact alistFind_set_self key _ ist.idx_by_path

theorem setIdxInclude_find_mono (ist : IState) (key key' : String)
    (inc : FileInclusion) (idx0 : Index)
    (h : alistFind key' ist.idx_by_path = some idx0) :
    ∃ idx1, alistFind key' (setIdxInclude ist key inc).idx_by_path
        = some idx1 ∧ ∀ e ∈ idx0.includes, e ∈ idx1.includes := by
  by_cases hk : key' = key
  · subst hk
    refine ⟨idx0.addInclude inc, setIdxInclude_find_self ist key' inc idx0 h, ?_⟩
    intro e he
    unfold Index.addInclude
    simpa [mem_insertIncl] using Or.inr he
  · unfold setIdxInclude
    split
    · refine ⟨idx0, ?_, fun e he => he⟩
      simpa [alistFind_set_other _ _ hk] using h
    · exact ⟨idx0, h, fun e he => he⟩

theorem forcedPass_spec (ist : IState) (idx0 : Index)
    (h : alistFind ist.filename ist.idx_by_path = some idx0) :
    ∃ idx1, alistFind ist.filename (forcedPass ist).idx_by_path = some idx1 ∧
      (∀ e ∈ idx0.includes, e ∈ idx1.includes) ∧
      (∀ p ∈ ist.args.includes.iterate,
        (⟨p, 0, 0⟩ : FileInclusion) ∈ idx1.includes) := by
  unfold forcedPass
  have hfold : ∀ (l : List String) (s : IState) (i0 : Index),
      alistFind ist.filename s.idx_by_path = some i0 →
      ∃ i1, alistFind ist.filename
          ((l.foldl (fun s inc => setIdxInclude s ist.filename ⟨inc, 0, 0⟩) s)).idx_by_path
          = some i1 ∧
        (∀ e ∈ i0.includes, e ∈ i1.includes) ∧
        (∀ p ∈ l, (⟨p, 0, 0⟩ : FileInclusion) ∈ i1.includes) := by
    intro l
    induction l with
    | nil =>
      intro s i0 hs
      exact ⟨i0, hs, fun e he => he, by simp⟩
    | cons p rest ih =>
      intro s i0 hs
      simp only [List.foldl_cons]
      have hstep := setIdxInclude_find_self s ist.filename ⟨p, 0, 0⟩ i0 hs
      obtain ⟨i1, hfind, hmono, hall⟩ := ih _ _ hstep
      refine ⟨i1, hfind, ?_, ?_⟩
      · intro e he
        refine hmono e ?_
        unfold Index.addInclude
        simpa [mem_insertIncl] using Or.inr he
      · intro q hq
        rcases List.mem_cons.mp hq with hq' | hq'
        · subst hq'
          refine hmono _ ?_
          unfold Index.addInclude
          simpa [mem_insertIncl] using Or.inl rfl
        · exact hall q hq'
  exact hfold _ ist idx0 h

theorem enumPass_mono (incs : List IncEntry) :
    ∀ (ist : IState) (key : String) (idx0 : Index),
      alistFind key ist.idx_by_path = some idx0 →
      ∃ idx1, alistFind key (enumPass ist incs).idx_by_path = some idx1 ∧
        ∀ e ∈ idx0.includes, e ∈ idx1.includes := by
  unfold enumPass
  induction incs with
  | nil =>
    intro ist key idx0 h
    exact ⟨idx0, h, fun e he => he⟩
  | cons i rest ih =>
    intro ist key idx0 h
    simp only [List.foldl_cons]
    match i.source with
    | none => exact ih ist key idx0 h
    | some src =>
      obtain ⟨im, hfind, hmono⟩ := setIdxInclude_find_mono ist src key _ idx0 h
      obtain ⟨i1, hfind1, hmono1⟩ := ih _ key im hfind
      exact ⟨i1, hfind1, fun e he => hmono1 e (hmono e he)⟩

theorem enumPass_from (incs : List IncEntry) :
    ∀ (ist : IState) (key : String) (idx1 : Index) (e : FileInclusion),
      alistFind key (enumPass ist incs).idx_by_path = some idx1 →
      e ∈ idx1.includes →
      (∃ idx0, alistFind key ist.idx_by_path = some idx0 ∧ e ∈ idx0.includes) ∨
      ∃ i ∈ incs, i.source = some key ∧
        e = ⟨normpath i.includeName, i.line, i.column⟩ := by
  unfold enumPass
  induction incs with
  | nil =>
    intro ist key idx1 e h he
    exact Or.inl ⟨idx1, h, he⟩
  | cons i rest ih =>
    intro ist key idx1 e h he
    simp only [List.foldl_cons] at h
    have hback := fun s => ih s key idx1 e
    match hsrc : i.source with
    | none =>
      rw [hsrc] at h
      rcases hback ist h he with h' | ⟨j, hj, hjs, hje⟩
      · exact Or.inl h'
      · exact Or.inr ⟨j, List.mem_cons_of_mem _ hj, hjs, hje⟩
    | some src =>
      rw [hsrc] at h
      rcases hback _ h he with ⟨i0, hfind0, he0⟩ | ⟨j, hj, hjs, hje⟩
      · match hS : alistFind src ist.idx_by_path with
        | none =>
          simp only [setIdxInclude, hS] at hfind0
          exact Or.inl ⟨i0, hfind0, he0⟩
        | some idxS =>
          simp only [setIdxInclude, hS] at hfind0
          by_cases hk : key = src
          · subst hk
            rw [alistFind_set_self] at hfind0
            cases hfind0
            unfold Index.addInclude at he0
            simp only at he0
            rcases (mem_insertIncl _ _ _).mp he0 with he' | he'
            · exact Or.inr ⟨i, List.mem_cons_self _ _, hsrc, he'⟩
            · exact Or.inl ⟨idxS, hS, he'⟩
          · rw [alistFind_set_other _ _ hk] at hfind0
            exact Or.inl ⟨i0, hfind0, he0⟩
      · exact Or.inr ⟨j, List.mem_cons_of_mem _ hj, hjs, hje⟩

/-- Inputs for C8: a root source whose compile command forces the
include `/usr/pre.h`, which lies outside the project root; the parser
reports no cursors and no include directives for it. -/
def c8Cmd : CompileCommand :=
  ⟨"/proj/a.cpp", ⟨["-include", "/usr/pre.h"], .pathSet ["/usr/pre.h"], false⟩,
   "/proj", false⟩

def c8Cdb : CDB := [("/proj/a.cpp", some c8Cmd)]

def c8Fs : FS := fun p => if p = "/proj/a.cpp" then some 50 else none

/-- The store a successful update leaves behind on the C8 inputs: the
source row and its args, but no `includes` row at all. -/
def c8DbAfter : DBState :=
  ⟨[⟨1, "/proj/a.cpp", "/proj", 200, false⟩],
   [⟨1, 1, "-include"⟩, ⟨2, 1, "/usr/pre.h"⟩], [], [], [], 2, 3, 1⟩

/-- C8's final clause fails on the code: `/usr/pre.h` is a forced
include of the root source `/proj/a.cpp` and the update completes
successfully, yet the committed store contains no `includes` row — the
pseudo-edge exists only in the in-memory index and `_save_includes`
skips it because the path resolves to no `files` row and `should_index`
rejects it (outside the project root). -/
theorem C8_forced_include_edge_not_persisted_counterexample :
    "/usr/pre.h" ∈ c8Cmd.args.includes.iterate ∧
    c8Cmd.is_included = false ∧
    updateModel (fun _ _ => false) trivialParse "/proj" 200 "/proj" c8Fs
      c8Cdb [] emptyDb = .ok c8DbAfter ∧
    c8DbAfter.includes = [] ∧
    (∀ f ∈ c8DbAfter.files, f.path ≠ "/usr/pre.h") := by
  refine ⟨by decide, rfl, ?_, rfl, by decide⟩
  unfold updateModel
  dsimp only
  have hini : initFM (fun _ _ => false) connectToDbForeignKeys 200 "/proj"
      c8Fs c8Cdb [] emptyDb
      = (⟨"/proj/", 200, [], ["/proj/a.cpp"], [], [], [], []⟩, emptyDb) := by
    decide
  rw [hini]
  dsimp only
  rw [updateLoop_step trivialParse "/proj" c8Cdb
    ⟨"/proj/", 200, [], ["/proj/a.cpp"], [], [], [], []⟩
    ⟨"/proj/", 200, ["/proj/a.cpp"], [], [], [], [], []⟩ emptyDb c8Cmd
    (by decide)]
  have hpc : processCmd trivialParse "/proj" c8Cmd
      ⟨"/proj/", 200, ["/proj/a.cpp"], [], [], [], [], []⟩ emptyDb
      = (⟨"/proj/", 200, ["/proj/a.cpp", "/usr/pre.h"], [], [], [], [], []⟩,
         c8DbAfter) := by
    decide
  rw [hpc]
  dsimp only
  rw [updateLoop_done trivialParse "/proj" c8Cdb
    ⟨"/proj/", 200, ["/proj/a.cpp", "/usr/pre.h"], [], [], [], [], []⟩
    c8DbAfter rfl rfl rfl rfl]
  dsimp only
  rw [removeOrphans_no_orphans connectToDbForeignKeys (by decide)]

/-- C8 amended: for a compile command with `is_included = false`, every
path in the forced-include set is added to the root's in-memory index as
an include edge at `(0, 0)` (and survives the directive-attribution
pass); for commands with `is_included = true` no pseudo-edges are added:
every include recorded by `_sort_includes` was already present or comes
from the parser's include enumeration.  (The pseudo-edge reaches the
store only if save-time resolution finds or creates a `files` row for
its path, which the counterexample shows can fail.) -/
theorem C8_forced_includes_as_zero_zero_edges (ist : IState)
    (incs : List IncEntry) (idx0 : Index)
    (hsrc : alistFind ist.filename ist.idx_by_path = some idx0) :
    (ist.is_included = false →
      ∀ p ∈ ist.args.includes.iterate,
        ∃ idx1, alistFind ist.filename
            (sortIncludes ist incs).idx_by_path = some idx1 ∧
          (⟨p, 0, 0⟩ : FileInclusion) ∈ idx1.includes) ∧
    (ist.is_included = true →
      ∀ (key : String) (idx1 : Index) (e : FileInclusion),
        alistFind key (sortIncludes ist incs).idx_by_path = some idx1 →
        e ∈ idx1.includes →
        (∃ i0, alistFind key ist.idx_by_path = some i0 ∧ e ∈ i0.includes) ∨
        ∃ i ∈ incs, i.source = some key ∧
          e = ⟨normpath i.includeName, i.line, i.column⟩) := by
  constructor
  · intro hroot p hp
    have hs : sortIncludes ist incs = enumPass (forcedPass ist) incs := by
      unfold sortIncludes
      rw [hroot]
      rfl
    rw [hs]
    obtain ⟨idxm, hfm, _, hall⟩ := forcedPass_spec ist idx0 hsrc
    obtain ⟨idx1, hf1, hm1⟩ := enumPass_mono incs (forcedPass ist)
      ist.filename idxm hfm
    exact ⟨idx1, hf1, hm1 _ (hall p hp)⟩
  · intro hinc key idx1 e hfind he
    have hs : sortIncludes ist incs = enumPass ist incs := by
      unfold sortIncludes
      rw [hinc]
      rfl
    rw [hs] at hfind
    exact enumPass_from incs ist key idx1 e hfind he

/-- Witness for C8 amended: a root command with forced include
`/proj/pre.h` gets the `(0, 0)` pseudo-edge; a header command
(`is_included = true`) with one reported directive records only edges
that are pre-existing or come from the enumeration. -/
theorem C8_forced_includes_as_zero_zero_edges_witness :
    (∃ idx1, alistFind "/proj/a.cpp"
        (sortIncludes (mkIndexer "/proj" c2Fm
          ⟨"/proj/a.cpp", ⟨[], .pathSet ["/proj/pre.h"], false⟩, "/proj", false⟩)
          []).idx_by_path = some idx1 ∧
      (⟨"/proj/pre.h", 0, 0⟩ : FileInclusion) ∈ idx1.includes) ∧
    ((∃ i0, alistFind "/proj/b.h"
        (mkIndexer "/proj" c2Fm
          ⟨"/proj/b.h", ⟨[], .pathSet [], false⟩, "/proj", true⟩).idx_by_path
          = some i0 ∧
        (⟨"/proj/x.h", 2, 1⟩ : FileInclusion) ∈ i0.includes) ∨
      ∃ i ∈ [(⟨some "/proj/b.h", "/proj/x.h", 2, 1⟩ : IncEntry)],
        i.source = some "/proj/b.h" ∧
        (⟨"/proj/x.h", 2, 1⟩ : FileInclusion)
          = ⟨normpath i.includeName, i.line, i.column⟩) := by
  constructor
  · exact (C8_forced_includes_as_zero_zero_edges
      (mkIndexer "/proj" c2Fm
        ⟨"/proj/a.cpp", ⟨[], .pathSet ["/proj/pre.h"], false⟩, "/proj", false⟩)
      [] (mkIndex ⟨"/proj/a.cpp", ⟨[], .pathSet ["/proj/pre.h"], false⟩, "/proj", false⟩)
      rfl).1 rfl "/proj/pre.h" (by decide)
  · exact (C8_forced_includes_as_zero_zero_edges
      (mkIndexer "/proj" c2Fm
        ⟨"/proj/b.h", ⟨[], .pathSet [], false⟩, "/proj", true⟩)
      [⟨some "/proj/b.h", "/proj/x.h", 2, 1⟩]
      (mkIndex ⟨"/proj/b.h", ⟨[], .pathSet [], false⟩, "/proj", true⟩)
      rfl).2 rfl "/proj/b.h"
      ((mkIndex ⟨"/proj/b.h", ⟨[], .pathSet [], false⟩, "/proj", true⟩).addInclude
        ⟨"/proj/x.h", 2, 1⟩)
      ⟨"/proj/x.h", 2, 1⟩ (by rfl) (by decide)

/-- C7: if every stored file's `last_update` exceeds its mtime, the
stored root sources coincide with the compilation-database paths, and
the store carries no orphan include files (as after a successful
update), then a run of `update` computes empty work sets, places every
stored file in `visited` up front, lets the orphan pass delete nothing,
and returns with the store exactly as it was: no inserts, updates or
deletes. -/
theorem C7_second_update_is_noop (globMatch : String → String → Bool)
    (parse : CompileCommand → ParseResult) (procCwd : String) (now : Int)
    (root : String) (fs : FS) (cdb : CDB) (inlinePats : List String)
    (db : DBState)
    (hfresh : ∀ g ∈ db.files, ∃ m, fs g.path = some m ∧ m < g.last_update)
    (hsrc : ∀ g ∈ db.files, g.is_included = false → g.path ∈ cdbPaths cdb)
    (hcdb : ∀ p ∈ cdbPaths cdb, ∃ g ∈ db.files,
      g.is_included = false ∧ g.path = p)
    (hnoorph : ∀ g ∈ db.files, g.is_included = true →
      ∃ e ∈ db.includes, e.included_file_id = g.id) :
    (initFM globMatch connectToDbForeignKeys now root fs cdb inlinePats
      db).1.sources_to_add = [] ∧
    (initFM globMatch connectToDbForeignKeys now root fs cdb inlinePats
      db).1.sources_to_update = [] ∧
    (initFM globMatch connectToDbForeignKeys now root fs cdb inlinePats
      db).1.headers_to_update = [] ∧
    (initFM globMatch connectToDbForeignKeys now root fs cdb inlinePats
      db).1.inlines_to_update = [] ∧
    (∀ g ∈ db.files, g.path ∈ (initFM globMatch connectToDbForeignKeys now
      root fs cdb inlinePats db).1.visited) ∧
    removeOrphans connectToDbForeignKeys db = db ∧
    updateModel globMatch parse procCwd now root fs cdb inlinePats db
      = .ok db := by
  obtain ⟨hA, hB1, hB2, hB3, hB4, hC⟩ := initFM_fresh globMatch
    connectToDbForeignKeys now root fs cdb inlinePats db hfresh hsrc hcdb
  have horph := removeOrphans_no_orphans connectToDbForeignKeys
    (orphansOf_nil_of_no_orphans db hnoorph)
  refine ⟨hB1, hB2, hB3, hB4, hC, horph, ?_⟩
  unfold updateModel
  dsimp only
  rw [updateLoop_done parse procCwd cdb _ _ hB1 hB2 hB3 hB4]
  dsimp only
  rw [hA, horph]

/-- Inputs for the C7 witness: a source/header pair, both fresh, with
the source still listed by the compilation database and the header
reached by an includes edge. -/
def c7Db : DBState :=
  ⟨[⟨1, "/proj/a.cpp", "/proj", 100, false⟩,
    ⟨2, "/proj/a.h", "/proj", 100, true⟩],
   [⟨1, 1, "-DF"⟩], [⟨1, 2, 3, 4⟩], [], [], 3, 2, 1⟩

def c7Fs : FS := fun p =>
  if p = "/proj/a.cpp" then some 50
  else if p = "/proj/a.h" then some 60 else none

def c7Cmd : CompileCommand :=
  ⟨"/proj/a.cpp", ⟨[], .pathSet [], false⟩, "/proj", false⟩

def c7Cdb : CDB := [("/proj/a.cpp", some c7Cmd)]

/-- Witness for C7: the second update run on the fresh store returns the
store unchanged. -/
theorem C7_second_update_is_noop_witness :
    updateModel (fun _ _ => false) trivialParse "/proj" 200 "/proj" c7Fs
      c7Cdb [] c7Db = .ok c7Db := by
  have h := C7_second_update_is_noop (fun _ _ => false) trivialParse
    "/proj" 200 "/proj" c7Fs c7Cdb [] c7Db ?_ (by decide) (by decide)
    (by decide)
  · exact h.2.2.2.2.2.2
  · intro g hg
    simp only [c7Db, List.mem_cons] at hg
    rcases hg with hg | hg | hg
    · subst hg
      exact ⟨50, rfl, by norm_num⟩
    · subst hg
      exact ⟨60, rfl, by norm_num⟩
    · cases hg

end Yacbi
